import Mathlib

/-!
Verification development for the `foldy` folder organizer.

The development shallowly embeds the parts of `src/organizer.py` and
`src/nlp.py` that the checked properties are about:

* a filesystem model (`FS`): a set of directories plus a finite map from
  file paths to file identities (file *contents* are never read by the
  program, so a file is tracked by an abstract numeric identity);
* the apply/undo journal (`apply_changes`, `undo_last_change`,
  `explode_folder_structure` and the journal-file store they write);
* the name-pattern classifiers and the name standardizer of
  `FolderNameAnalyzer`;
* `difflib.SequenceMatcher.ratio` (no junk handling, which is inert for
  the short names involved) and the relocation scorer built on it.

Paths are modelled as lists of components relative to the scanned root
(the root itself is `[]`).  Timestamps are abstract: the timestamp
string used for collision renaming is modelled by a fixed marker, and
journal write times by the order of the journal store list.
-/

/-- A filesystem path is the list of its components below the root. -/
abbrev FsPath := List String

/-- `os.path.basename`: the last path component (empty for the root). -/
def basenameOf (p : FsPath) : String := p.getLast?.getD ""

/-- `os.path.dirname`: all components but the last. -/
def dirnameOf (p : FsPath) : FsPath := p.dropLast

/-- All nonempty initial segments of a path: the chain of directories
`os.makedirs` has to create. -/
def pathInits (p : FsPath) : List FsPath :=
  (List.range p.length).map (fun i => p.take (i + 1))

/-- `child` is an immediate directory entry of `parent`. -/
def isChildOf (parent child : FsPath) : Prop :=
  child ≠ [] ∧ child.dropLast = parent

instance (parent child : FsPath) : Decidable (isChildOf parent child) := by
  unfold isChildOf; infer_instance

/-- `desc` lies strictly below `anc` in the tree. -/
def strictDescendant (anc desc : FsPath) : Prop :=
  anc <+: desc ∧ anc ≠ desc

instance (anc desc : FsPath) : Decidable (strictDescendant anc desc) := by
  unfold strictDescendant; infer_instance

/-- The filesystem state: the set of directories that exist below the
root (the root itself always exists and is not listed), and the files
that exist, each carrying an abstract identity standing for its
(never-read) content. -/
structure FS where
  dirs : List FsPath
  files : List (FsPath × Nat)
deriving DecidableEq, Repr

/-- `os.path.isdir` (the root always exists). -/
def FS.isDir (fs : FS) (p : FsPath) : Prop := p = [] ∨ p ∈ fs.dirs

instance (fs : FS) (p : FsPath) : Decidable (fs.isDir p) := by
  unfold FS.isDir; infer_instance

/-- A file exists at `p`. -/
def FS.isFile (fs : FS) (p : FsPath) : Prop := ∃ e ∈ fs.files, e.1 = p

instance (fs : FS) (p : FsPath) : Decidable (fs.isFile p) := by
  unfold FS.isFile; infer_instance

/-- `os.path.exists`. -/
def FS.pathExists (fs : FS) (p : FsPath) : Prop := fs.isDir p ∨ fs.isFile p

instance (fs : FS) (p : FsPath) : Decidable (fs.pathExists p) := by
  unfold FS.pathExists; infer_instance

/-- `os.makedirs(p, exist_ok=True)`: create `p` together with any
missing ancestor directories. -/
def FS.makedirs (fs : FS) (p : FsPath) : FS :=
  { fs with dirs := fs.dirs ++ (pathInits p).filter (fun q => decide (q ∉ fs.dirs)) }

/-- Move the single file at `src` to path `dst` (`shutil.move` in the
case, arranged by the callers' existence checks, where `dst` is not an
existing directory; a plain file already at `dst` is overwritten, as
`os.rename` does). -/
def FS.moveFileTo (fs : FS) (src dst : FsPath) : FS :=
  match fs.files.find? (fun e => decide (e.1 = src)) with
  | none => fs
  | some e =>
    ⟨fs.dirs, fs.files.filter (fun x => decide (x.1 ≠ src ∧ x.1 ≠ dst)) ++ [(dst, e.2)]⟩

/-- Relabel a path when the directory at `src` is renamed to `dst`. -/
def relabelUnder (src dst p : FsPath) : FsPath :=
  if src <+: p then dst ++ p.drop src.length else p

/-- Move the directory at `src` (with its whole subtree) to `dst`
(`shutil.move` / `os.rename` on a directory, in the guarded case where
`dst` does not exist yet). -/
def FS.moveDirTo (fs : FS) (src dst : FsPath) : FS :=
  ⟨fs.dirs.map (relabelUnder src dst),
   fs.files.map (fun e => (relabelUnder src dst e.1, e.2))⟩

/-- `shutil.move`: directories move with their subtree, files alone. -/
def FS.moveAny (fs : FS) (src dst : FsPath) : FS :=
  if fs.isDir src then fs.moveDirTo src dst else fs.moveFileTo src dst

/-- `shutil.rmtree`: delete the directory at `p` and everything below it. -/
def FS.rmtree (fs : FS) (p : FsPath) : FS :=
  ⟨fs.dirs.filter (fun d => decide (¬ p <+: d)),
   fs.files.filter (fun e => decide (¬ p <+: e.1))⟩

/-- `os.rmdir` (callers check emptiness first). -/
def FS.rmdir (fs : FS) (p : FsPath) : FS :=
  ⟨fs.dirs.filter (fun d => decide (d ≠ p)), fs.files⟩

/-- `not os.listdir(p)`: the directory at `p` has no immediate entries. -/
def FS.listdirEmpty (fs : FS) (p : FsPath) : Prop :=
  (∀ d ∈ fs.dirs, ¬ isChildOf p d) ∧ (∀ e ∈ fs.files, ¬ isChildOf p e.1)

instance (fs : FS) (p : FsPath) : Decidable (fs.listdirEmpty p) := by
  unfold FS.listdirEmpty; infer_instance

/-- The immediate subdirectories of `p`, in directory-list order
(modelling the `os.scandir` enumeration order). -/
def FS.childDirs (fs : FS) (p : FsPath) : List FsPath :=
  fs.dirs.filter (fun d => decide (isChildOf p d))

/-- The files directly inside `p`, in file-list order. -/
def FS.childFiles (fs : FS) (p : FsPath) : List (FsPath × Nat) :=
  fs.files.filter (fun e => decide (isChildOf p e.1))

/-- `os.path.splitext` on a file name: split off the extension at the
last dot, except that a name consisting only of leading dots before it
has no extension. -/
def pySplitExt (n : String) : String × String :=
  match (n.data.reverse.span (fun c => decide (c ≠ '.')) : List Char × List Char) with
  | (_, []) => (n, "")
  | (revExt, _ :: revStem) =>
    if revStem.any (fun c => decide (c ≠ '.')) then
      (String.mk revStem.reverse, String.mk ('.' :: revExt.reverse))
    else (n, "")

/-- The timestamp-suffixed collision name `f"{base}{timestamp}{ext}"`;
the `time.strftime("_%Y%m%d_%H%M%S")` timestamp is abstracted to a
fixed marker (its exact digits never matter to the properties checked). -/
def timestampedName (n : String) : String :=
  let (stem, ext) := pySplitExt n
  stem ++ "_TS" ++ ext

/-! ## Suggestions and change records (`FolderOrganizer.apply_changes`) -/

/-- The tagged suggestion records consumed by `apply_changes`, with the
payload fields that `apply_changes`/`undo_last_change` actually read.
`renameForConsistency.suggestedNames` is the `suggested_names` dict as
an association list (path, new name); `groupLooseFiles.files` is the
list of the `file_info['path']` values. -/
inductive Suggestion where
  | mergeSimilarFolders (folders : List FsPath) (suggestedName : String)
  | renameForConsistency (suggestedNames : List (FsPath × String))
  | createGroup (folders : List FsPath) (parent : FsPath) (suggestedName : String)
  | relocate (folder : FsPath) (suggestedParent : FsPath)
  | groupLooseFiles (files : List FsPath) (targetFolder : FsPath) (isNewFolder : Bool)
deriving DecidableEq, Repr

/-- The `change_record['result']` payload, one shape per suggestion type. -/
inductive ChangeResult where
  | newFolder (path : FsPath)
  | renamed (moves : List (FsPath × FsPath))
  | movedFolders (moves : List (FsPath × FsPath))
  | relocated (fromPath toPath : FsPath)
  | movedFiles (targetFolder : FsPath) (isNewFolder : Bool) (moves : List (FsPath × FsPath))
deriving DecidableEq, Repr

/-- One entry of `change_log['changes']`.  The code sets `status` to
the literal `"completed"` unconditionally; `result` is absent exactly
when the `relocate` branch skips its guarded move. -/
structure ChangeRecord where
  suggestion : Suggestion
  status : String
  result : Option ChangeResult
deriving DecidableEq, Repr

/-! `FolderOrganizer._move_folder_contents`, the recursive merge used by
the merge apply branch and the merge undo branch.  The recursion is
fuel-bounded in the model; every use below supplies ample fuel.  The
model enumerates the subdirectory entries of the source before the file
entries (the `os.scandir` order is unspecified in the source); both
entry lists are the ones present when the call starts.  The Boolean is
false when the Python call raises (source directory missing — 
`os.scandir` raises and the except-block re-raises — or fuel ran out,
which no use below allows). -/

mutual

/-- Process the subdirectory entries of one `_move_folder_contents`
call: recursively merge into an existing destination, otherwise move
the whole subtree. -/
def mfcDirs : Nat → FS → FsPath → List FsPath → FS × Bool
  | _, fs, _, [] => (fs, true)
  | 0, fs, _, _ :: _ => (fs, false)
  | fuel + 1, fs, dst, d :: ds =>
    let dstPath := dst ++ [basenameOf d]
    if fs.pathExists dstPath then
      match mfcInto fuel fs d dstPath with
      | (fs', false) => (fs', false)
      | (fs', true) => mfcDirs fuel fs' dst ds
    else
      mfcDirs fuel (fs.moveDirTo d dstPath) dst ds

/-- `_move_folder_contents(src, dst)` itself. -/
def mfcInto : Nat → FS → FsPath → FsPath → FS × Bool
  | 0, fs, _, _ => (fs, false)
  | fuel + 1, fs, src, dst =>
    if fs.isDir src then
      match mfcDirs fuel fs dst (fs.childDirs src) with
      | (fs1, false) => (fs1, false)
      | (fs1, true) => (mfcFiles fs1 dst (fs.childFiles src), true)
    else (fs, false)

/-- Process the file entries of one `_move_folder_contents` call:
timestamp-suffix on a destination collision, then move. -/
def mfcFiles : FS → FsPath → List (FsPath × Nat) → FS
  | fs, _, [] => fs
  | fs, dst, (q, _) :: rest =>
    let n := basenameOf q
    let dstPath := if fs.pathExists (dst ++ [n]) then dst ++ [timestampedName n] else dst ++ [n]
    mfcFiles (fs.moveFileTo q dstPath) dst rest

end

/-- Fuel that is ample for every filesystem the concrete scenarios
below build. -/
def mfcFuel (fs : FS) : Nat := 2 * (fs.dirs.length + fs.files.length) + 8

/-- The merge apply branch's loop over the source folders: merge each
folder's contents into the target, then `rmtree` the emptied source. -/
def mergeApplyLoop (fuel : Nat) (fs : FS) (target : FsPath) : List FsPath → FS × Bool
  | [] => (fs, true)
  | f :: rest =>
    match mfcInto fuel fs f target with
    | (fs', false) => (fs', false)
    | (fs', true) =>
      let fs'' := if fs'.pathExists f ∧ f ≠ target then fs'.rmtree f else fs'
      mergeApplyLoop fuel fs'' target rest

/-- The rename apply branch's loop: rename only when the source still
exists and the destination does not, collecting the performed renames. -/
def renameApplyLoop (fs : FS) :
    List (FsPath × String) → List (FsPath × FsPath) → FS × List (FsPath × FsPath)
  | [], acc => (fs, acc)
  | (p, newName) :: rest, acc =>
    let newPath := dirnameOf p ++ [newName]
    if fs.pathExists p ∧ ¬ fs.pathExists newPath then
      renameApplyLoop (fs.moveAny p newPath) rest (acc ++ [(p, newPath)])
    else
      renameApplyLoop fs rest acc

/-- The create-group apply branch's loop over the listed folders. -/
def createGroupLoop (fs : FS) (target : FsPath) :
    List FsPath → List (FsPath × FsPath) → FS × List (FsPath × FsPath)
  | [], acc => (fs, acc)
  | fp :: rest, acc =>
    let newPath := target ++ [basenameOf fp]
    if fs.pathExists fp ∧ ¬ fs.pathExists newPath then
      createGroupLoop (fs.moveAny fp newPath) target rest (acc ++ [(fp, newPath)])
    else
      createGroupLoop fs target rest acc

/-- The loose-file apply branch's loop over the listed files:
timestamp-suffix on a name collision at the target, move when the
source still exists, and record the performed moves. -/
def glfApplyLoop (fs : FS) (target : FsPath) :
    List FsPath → List (FsPath × FsPath) → FS × List (FsPath × FsPath)
  | [], acc => (fs, acc)
  | src :: rest, acc =>
    let n := basenameOf src
    let dst := if fs.pathExists (target ++ [n]) then target ++ [timestampedName n] else target ++ [n]
    if fs.pathExists src then
      glfApplyLoop (fs.moveAny src dst) target rest (acc ++ [(src, dst)])
    else
      glfApplyLoop fs target rest acc

/-- Apply one approved suggestion (`apply_changes` loop body).  The
returned record is `none` when the Python body raises out of the
suggestion (which the single enclosing try/except of `apply_changes`
then catches): an empty merge folder list (`folders[0]` raises
`IndexError`) or a failing `_move_folder_contents`. -/
def applySuggestion (fs : FS) : Suggestion → FS × Option ChangeRecord
  | .mergeSimilarFolders folders name =>
    match folders with
    | [] => (fs, none)
    | f0 :: _ =>
      let target := dirnameOf f0 ++ [name]
      let fs1 := fs.makedirs target
      match mergeApplyLoop (mfcFuel fs1) fs1 target folders with
      | (fs2, false) => (fs2, none)
      | (fs2, true) =>
        (fs2, some ⟨.mergeSimilarFolders folders name, "completed", some (.newFolder target)⟩)
  | .renameForConsistency pairs =>
    let (fs1, changes) := renameApplyLoop fs pairs []
    (fs1, some ⟨.renameForConsistency pairs, "completed", some (.renamed changes)⟩)
  | .createGroup folders parent name =>
    let target := parent ++ [name]
    let fs1 := fs.makedirs target
    let (fs2, moved) := createGroupLoop fs1 target folders []
    (fs2, some ⟨.createGroup folders parent name, "completed", some (.movedFolders moved)⟩)
  | .relocate folder suggestedParent =>
    let newPath := suggestedParent ++ [basenameOf folder]
    if fs.pathExists folder ∧ ¬ fs.pathExists newPath then
      (fs.moveAny folder newPath,
       some ⟨.relocate folder suggestedParent, "completed", some (.relocated folder newPath)⟩)
    else
      (fs, some ⟨.relocate folder suggestedParent, "completed", none⟩)
  | .groupLooseFiles files target isNew =>
    let fs1 := if isNew then fs.makedirs target else fs
    let (fs2, moved) := glfApplyLoop fs1 target files []
    (fs2, some ⟨.groupLooseFiles files target isNew, "completed",
                some (.movedFiles target isNew moved)⟩)

/-- The `apply_changes` suggestion loop.  The whole loop runs inside a
single try/except in the source, so the first raising suggestion ends
the loop: the second component is `none` (no record list, hence no
journal) and the filesystem keeps the mutations made so far. -/
def applyLoop (fs : FS) : List Suggestion → FS × Option (List ChangeRecord)
  | [] => (fs, some [])
  | s :: rest =>
    match applySuggestion fs s with
    | (fs', none) => (fs', none)
    | (fs', some rec) =>
      match applyLoop fs' rest with
      | (fs'', none) => (fs'', none)
      | (fs'', some recs) => (fs'', some (rec :: recs))

/-! ## The journal directory and `undo_last_change` -/

/-- The content of one journal file: an apply batch (`changes_*.json`,
holding `change_log['changes']`) or an explode batch (`explode_*.json`,
holding `moved_files` and `deleted_dirs` and no `changes` key). -/
inductive JournalContent where
  | applyBatch (changes : List ChangeRecord)
  | explodeBatch (movedFiles : List (FsPath × FsPath)) (deletedDirs : List FsPath)
deriving DecidableEq, Repr

/-- The journal (`logs`) directory: file names with their contents, in
order of writing (later entries were written later). -/
abbrev JournalStore := List (String × JournalContent)

/-- The file names present in the journal directory. -/
def journalNames (store : JournalStore) : List String := store.map (·.1)

/-- Python string `<=`: lexicographic comparison by code point. -/
def chLe : List Char → List Char → Bool
  | [], _ => true
  | _ :: _, [] => false
  | a :: as, b :: bs => if a = b then chLe as bs else decide (a < b)

/-- Python string `<=` on the names. -/
def strLe (a b : String) : Bool := chLe a.data b.data

/-- Python's `str.startswith`. -/
def strStartsWith (s pre : String) : Bool := pre.data.isPrefixOf s.data

/-- Insert into a `strLe`-sorted list (ascending). -/
def insertLe (x : String) : List String → List String
  | [] => [x]
  | y :: ys => if strLe x y then x :: y :: ys else y :: insertLe x ys

/-- `sorted(...)` on file names (insertion sort; Python's sort is also
a comparison sort of the same order, and only the last element is read). -/
def sortLe : List String → List String
  | [] => []
  | x :: xs => insertLe x (sortLe xs)

/-- The journal file `undo_last_change` operates on:
`sorted([f for f in os.listdir(self.log_path) if f.startswith('changes_')])[-1]`. -/
def selectUndoJournal (store : JournalStore) : Option String :=
  (sortLe ((journalNames store).filter (fun n => strStartsWith n "changes_"))).getLast?

/-- Read a journal file's content by name. -/
def lookupJournal (store : JournalStore) (n : String) : Option JournalContent :=
  (store.find? (fun e => decide (e.1 = n))).map (·.2)

/-- `os.remove` of a journal file. -/
def removeJournal (store : JournalStore) (n : String) : JournalStore :=
  store.filter (fun e => decide (e.1 ≠ n))

/-- The merge undo branch's loop over the original folders: recreate
each and pour the merged target's contents into it (a missing target
makes `_move_folder_contents` raise, reported as `false`). -/
def mergeUndoLoop (fuel : Nat) (fs : FS) (newFolder : FsPath) : List FsPath → FS × Bool
  | [] => (fs, true)
  | f :: rest =>
    let fs1 := fs.makedirs f
    match mfcInto fuel fs1 newFolder f with
    | (fs2, false) => (fs2, false)
    | (fs2, true) => mergeUndoLoop fuel fs2 newFolder rest

/-- The rename undo loop: rename back each pair whose renamed path
still exists. -/
def renameUndoLoop (fs : FS) : List (FsPath × FsPath) → FS
  | [] => fs
  | (orig, new) :: rest =>
    renameUndoLoop (if fs.pathExists new then fs.moveAny new orig else fs) rest

/-- The create-group / relocate / loose-file undo move: move back when
the destination of the original move still exists, recreating the
original parent directory first (`makedirs` only for the folder moves). -/
def moveBackLoop (fs : FS) (mkParent : Bool) : List (FsPath × FsPath) → FS
  | [] => fs
  | (frm, toP) :: rest =>
    let fs' :=
      if fs.pathExists toP then
        (if mkParent then fs.makedirs (dirnameOf frm) else fs).moveAny toP frm
      else fs
    moveBackLoop fs' mkParent rest

/-- Undo one change record (`undo_last_change` loop body).  `false`
means the Python body raised (only the merge branch can: a missing
merged folder makes `_move_folder_contents` raise).  Branches guarded
by `if 'result' in change ...` fall through silently when the record
has no (or a differently-shaped) result. -/
def undoChange (fuel : Nat) (fs : FS) (c : ChangeRecord) : FS × Bool :=
  match c.suggestion, c.result with
  | .mergeSimilarFolders folders _, some (.newFolder nf) =>
    match mergeUndoLoop fuel fs nf folders with
    | (fs1, false) => (fs1, false)
    | (fs1, true) =>
      (if fs1.pathExists nf ∧ fs1.listdirEmpty nf then fs1.rmdir nf else fs1, true)
  | .renameForConsistency _, some (.renamed moves) =>
    (renameUndoLoop fs moves, true)
  | .createGroup _ parent name, some (.movedFolders moves) =>
    let fs1 := moveBackLoop fs true moves
    let groupPath := parent ++ [name]
    (if fs1.pathExists groupPath ∧ fs1.listdirEmpty groupPath then fs1.rmdir groupPath else fs1,
     true)
  | .relocate _ _, some (.relocated origPath newPath) =>
    (if fs.pathExists newPath then (fs.makedirs (dirnameOf origPath)).moveAny newPath origPath
     else fs, true)
  | .groupLooseFiles _ _ _, some (.movedFiles target isNew moves) =>
    let fs1 := moveBackLoop fs false moves
    (if isNew ∧ fs1.pathExists target ∧ fs1.listdirEmpty target then fs1.rmdir target else fs1,
     true)
  | _, _ => (fs, true)

/-- Replay a list of change records in the given order, stopping at the
first record whose undo raises. -/
def undoReplay (fuel : Nat) (fs : FS) : List ChangeRecord → FS × Bool
  | [] => (fs, true)
  | c :: rest =>
    match undoChange fuel fs c with
    | (fs', false) => (fs', false)
    | (fs', true) => undoReplay fuel fs' rest

/-- `FolderOrganizer.undo_last_change`: pick the lexicographically last
`changes_`-prefixed journal file, replay its change list in reverse
order, and delete the file on success.  Any raise (no such file —
`log_files[-1]` is never reached because the empty-list check returns
first; a file without a `changes` key, i.e. an explode journal, raising
`KeyError`; or a replay step raising) is caught and reported as
`false`, leaving the journal directory untouched.  Result:
(return value, filesystem, journal directory). -/
def undo_last_change (fuel : Nat) (fs : FS) (store : JournalStore) :
    Bool × FS × JournalStore :=
  match selectUndoJournal store with
  | none => (false, fs, store)
  | some latest =>
    match lookupJournal store latest with
    | some (.applyBatch changes) =>
      match undoReplay fuel fs changes.reverse with
      | (fs', true) => (true, fs', removeJournal store latest)
      | (fs', false) => (false, fs', store)
    | some (.explodeBatch _ _) => (false, fs, store)
    | none => (false, fs, store)

/-- `FolderOrganizer.apply_changes`: run the suggestion loop inside one
try/except; on success write one `changes_<timestamp>.json` journal
file and return true; on a raise, catch it, write nothing, and return
false.  Result: (return value, filesystem, journal directory). -/
def apply_changes (fs : FS) (store : JournalStore) (tsName : String)
    (approved : List Suggestion) : Bool × FS × JournalStore :=
  match applyLoop fs approved with
  | (fs', some recs) =>
    (true, fs', store ++ [("changes_" ++ tsName ++ ".json", .applyBatch recs)])
  | (fs', none) => (false, fs', store)

/-! ## `FolderOrganizer.explode_folder_structure` -/

/-- The collision-renaming loop of explode: starting from counter 1,
the first `f"{base}_{counter}{ext}"` root name that does not exist yet
(fuel-bounded; ample fuel is supplied below). -/
def freeRootName (fs : FS) (stem ext : String) : Nat → Nat → FsPath
  | _, 0 => [stem ++ ext]
  | c, fuel + 1 =>
    let cand := stem ++ "_" ++ toString c ++ ext
    if fs.pathExists [cand] then freeRootName fs stem ext (c + 1) fuel else [cand]

/-- The explode file loop over the snapshot's file list: skip files
already in the root, resolve root-name collisions by counter renaming,
move, and record the moves. -/
def explodeMoveLoop (fs : FS) :
    List (FsPath × Nat) → List (FsPath × FsPath) → FS × List (FsPath × FsPath)
  | [], acc => (fs, acc)
  | (p, _) :: rest, acc =>
    if dirnameOf p = [] then explodeMoveLoop fs rest acc
    else
      let n := basenameOf p
      let dst :=
        if fs.pathExists [n] then
          let (stem, ext) := pySplitExt n
          freeRootName fs stem ext 1 (fs.files.length + 2)
        else [n]
      explodeMoveLoop (fs.moveAny p dst) rest (acc ++ [(p, dst)])

/-- The deletion pass of explode.  `os.walk(root, topdown=False)` lists
each directory's entries before descending into it and yields it after
its subtree, so when a directory is yielded its `dirs` list still names
subdirectories that the pass already deleted; `not files and not dirs`
therefore holds exactly for the directories that had no files and no
subdirectories when the pass started.  (File listings are accurate:
all file moves precede the pass and the pass never moves files.) -/
def explodeDeleteDirs (fs : FS) : List FsPath :=
  fs.dirs.filter (fun d =>
    decide (d ≠ [] ∧ (∀ d2 ∈ fs.dirs, ¬ isChildOf d d2) ∧ (∀ e ∈ fs.files, ¬ isChildOf d e.1)))

/-- `FolderOrganizer.explode_folder_structure`: move every file of the
snapshot to the root (collision renaming by counter), delete the
directories that the bottom-up walk finds empty, and journal the batch
as one `explode_<timestamp>.json` file.  Result: (return value,
filesystem, journal directory). -/
def explode_folder_structure (fs : FS) (store : JournalStore) (tsName : String) :
    Bool × FS × JournalStore :=
  let (fs1, moved) := explodeMoveLoop fs fs.files []
  let deleted := explodeDeleteDirs fs1
  let fs2 : FS := ⟨fs1.dirs.filter (fun d => decide (d ∉ deleted)), fs1.files⟩
  (true, fs2, store ++ [("explode_" ++ tsName ++ ".json", .explodeBatch moved deleted)])

/-! ## `FolderNameAnalyzer`: case and separator classification

Names are modelled as lists of characters; the Python `str.islower` /
`str.isupper` predicates are modelled for the alphabet the program
handles (ASCII letters are the cased characters). -/

/-- Python `str.islower`: at least one cased character and no cased
character uppercase. -/
def pyIslower (s : List Char) : Bool :=
  s.any (·.isAlpha) && s.all (fun c => !c.isAlpha || c.isLower)

/-- Python `str.isupper`. -/
def pyIsupper (s : List Char) : Bool :=
  s.any (·.isAlpha) && s.all (fun c => !c.isAlpha || c.isUpper)

/-- The case buckets of `_analyze_case_patterns`. -/
inductive CaseTag where
  | lowercase | uppercase | capitalized | camelcase | mixed
deriving DecidableEq, Repr

/-- The bucket `_analyze_case_patterns` appends a name to, following
the if/elif chain of the source.  `none` models the `IndexError` that
`name[0]` raises on an empty name (reached because the empty string is
neither `islower` nor `isupper`). -/
def classifyCase (n : List Char) : Option CaseTag :=
  if pyIslower n then some .lowercase
  else if pyIsupper n then some .uppercase
  else
    match n with
    | [] => none
    | c :: rest =>
      if c.isUpper && pyIslower rest then some .capitalized
      else if !pyIsupper n && !pyIslower n
              && !n.contains '_' && !n.contains '-' && !n.contains ' ' then
        if rest.any (·.isUpper) then some .camelcase else some .mixed
      else some .mixed

/-- The five case-bucket lists while the loop runs. -/
structure CaseBuckets where
  lowercase : List (List Char)
  uppercase : List (List Char)
  capitalized : List (List Char)
  camelcase : List (List Char)
  mixedCase : List (List Char)
deriving DecidableEq, Repr

/-- Append a name to the bucket its tag names (`list.append`). -/
def CaseBuckets.add (b : CaseBuckets) (t : CaseTag) (n : List Char) : CaseBuckets :=
  match t with
  | .lowercase => { b with lowercase := b.lowercase ++ [n] }
  | .uppercase => { b with uppercase := b.uppercase ++ [n] }
  | .capitalized => { b with capitalized := b.capitalized ++ [n] }
  | .camelcase => { b with camelcase := b.camelcase ++ [n] }
  | .mixed => { b with mixedCase := b.mixedCase ++ [n] }

/-- The classification loop; `none` when some name raises `IndexError`. -/
def caseLoop : List (List Char) → CaseBuckets → Option CaseBuckets
  | [], b => some b
  | n :: rest, b =>
    match classifyCase n with
    | none => none
    | some t => caseLoop rest (b.add t n)

/-- The dictionary `_analyze_case_patterns` returns: the five buckets in
declaration order with the empty ones removed. -/
def analyzeCasePatterns (names : List (List Char)) :
    Option (List (CaseTag × List (List Char))) :=
  (caseLoop names ⟨[], [], [], [], []⟩).map (fun b =>
    ([(CaseTag.lowercase, b.lowercase), (CaseTag.uppercase, b.uppercase),
      (CaseTag.capitalized, b.capitalized), (CaseTag.camelcase, b.camelcase),
      (CaseTag.mixed, b.mixedCase)]).filter (fun e => decide (e.2 ≠ [])))

/-- The separator buckets of `_analyze_separator_patterns`. -/
inductive SepTag where
  | underscore | hyphen | space | noSeparator | mixed
deriving DecidableEq, Repr

/-- The bucket `_analyze_separator_patterns` puts a name in, from its
`_` / `-` / space counts. -/
def classifySeparator (n : List Char) : SepTag :=
  let u := n.count '_'
  let h := n.count '-'
  let s := n.count ' '
  if u > 0 ∧ h = 0 ∧ s = 0 then .underscore
  else if h > 0 ∧ u = 0 ∧ s = 0 then .hyphen
  else if s > 0 ∧ u = 0 ∧ h = 0 then .space
  else if u = 0 ∧ h = 0 ∧ s = 0 then .noSeparator
  else .mixed

/-- The five separator-bucket lists while the loop runs. -/
structure SepBuckets where
  underscore : List (List Char)
  hyphen : List (List Char)
  space : List (List Char)
  noSeparator : List (List Char)
  mixedSep : List (List Char)
deriving DecidableEq, Repr

/-- Append a name to its separator bucket. -/
def SepBuckets.add (b : SepBuckets) (t : SepTag) (n : List Char) : SepBuckets :=
  match t with
  | .underscore => { b with underscore := b.underscore ++ [n] }
  | .hyphen => { b with hyphen := b.hyphen ++ [n] }
  | .space => { b with space := b.space ++ [n] }
  | .noSeparator => { b with noSeparator := b.noSeparator ++ [n] }
  | .mixed => { b with mixedSep := b.mixedSep ++ [n] }

/-- The separator classification loop (total: no entry can raise). -/
def sepLoop : List (List Char) → SepBuckets → SepBuckets
  | [], b => b
  | n :: rest, b => sepLoop rest (b.add (classifySeparator n) n)

/-- The dictionary `_analyze_separator_patterns` returns. -/
def analyzeSeparatorPatterns (names : List (List Char)) :
    List (SepTag × List (List Char)) :=
  let b := sepLoop names ⟨[], [], [], [], []⟩
  ([(SepTag.underscore, b.underscore), (SepTag.hyphen, b.hyphen),
    (SepTag.space, b.space), (SepTag.noSeparator, b.noSeparator),
    (SepTag.mixed, b.mixedSep)]).filter (fun e => decide (e.2 ≠ []))

/-- How many buckets of the case dictionary contain `n` (0 when the
analysis raised). -/
def caseBucketCount (names : List (List Char)) (n : List Char) : Nat :=
  match analyzeCasePatterns names with
  | none => 0
  | some bs => bs.countP (fun b => decide (n ∈ b.2))

/-- How many buckets of the separator dictionary contain `n`. -/
def sepBucketCount (names : List (List Char)) (n : List Char) : Nat :=
  (analyzeSeparatorPatterns names).countP (fun b => decide (n ∈ b.2))

/-! ## `FolderNameAnalyzer`: name parsing and reconstruction -/

/-- A character the regex class `[_\-\s]` matches, for the name
alphabet the program handles (the only whitespace in names is a space). -/
def isSepChar (c : Char) : Bool := c == '_' || c == '-' || c == ' '

/-- The components `_parse_name_components` extracts. -/
structure NameComponents where
  prefixNumber : Option (List Char)
  prefixSeparator : Option Char
  suffixNumber : Option (List Char)
  suffixSeparator : Option Char
  mainText : List Char
  words : List (List Char)
deriving DecidableEq, Repr

/-- `re.split(r'[_\-\s]', s)`. -/
def splitOnSeps : List Char → List (List Char)
  | [] => [[]]
  | c :: rest =>
    let r := splitOnSeps rest
    if isSepChar c then [] :: r
    else
      match r with
      | [] => [[c]]
      | w :: ws => (c :: w) :: ws

/-- The leading-number match `^(\d+)([_\-\s])(.*)`: the maximal digit
run, provided it is nonempty and followed by a separator character.
Returns (number, separator, rest) on a match. -/
def matchLeadingNumber (name : List Char) : Option (List Char × Char × List Char) :=
  match name.span (·.isDigit) with
  | (d :: ds, s :: tail) => if isSepChar s then some (d :: ds, s, tail) else none
  | _ => none

/-- The trailing-number match of `re.match(r'(.*)([_\-\s])(\d+)$', s)`:
with the greedy `(.*)`, the digits after the last separator, provided
everything after that separator is at least one digit.  Returns
(stem, separator, number) on a match. -/
def matchTrailingNumber (s : List Char) : Option (List Char × Char × List Char) :=
  match s.reverse.span (·.isDigit) with
  | (d :: ds, c :: tail) =>
    if isSepChar c then some (tail.reverse, c, (d :: ds).reverse) else none
  | _ => none

/-- `_parse_name_components`: strip the leading number, then the
trailing number from the remaining text, then split what is left into
nonempty words. -/
def parseNameComponents (name : List Char) : NameComponents :=
  let (pn, psep, main1) :=
    match matchLeadingNumber name with
    | some (d, s, tail) => (some d, some s, tail)
    | none => (none, none, name)
  let (sn, ssep, main2) :=
    match matchTrailingNumber main1 with
    | some (stem, s, d) => (some d, some s, stem)
    | none => (none, none, main1)
  ⟨pn, psep, sn, ssep, main2, (splitOnSeps main2).filter (fun w => decide (w ≠ []))⟩

/-- The `patterns` dict `_reconstruct_name` reads: the values of its
`case`, `separator` and `numbering` keys.  `other` stands for any value
that matches none of the recognized literals (including `None`);
`numbering` is kept as the raw optional string because the code only
ever compares it to `'padded_number'`. -/
inductive CasePatChoice where
  | lowercase | uppercase | capitalized | camelcase | other
deriving DecidableEq, Repr

/-- The `separator` choice. -/
inductive SepPatChoice where
  | underscore | hyphen | space | other
deriving DecidableEq, Repr

/-- The three pattern choices passed to `_reconstruct_name`. -/
structure PatternChoice where
  casePat : CasePatChoice
  sepPat : SepPatChoice
  numbering : Option String
deriving DecidableEq, Repr

/-- Python `w.lower()` (ASCII). -/
def pyLowerWord (w : List Char) : List Char := w.map Char.toLower

/-- Python `w.upper()` (ASCII). -/
def pyUpperWord (w : List Char) : List Char := w.map Char.toUpper

/-- Python `w[0].upper() + w[1:].lower() if w else ''`. -/
def pyCapWord (w : List Char) : List Char :=
  match w with
  | [] => []
  | c :: rest => c.toUpper :: rest.map Char.toLower

/-- The numeric value of a digit string. -/
def digitsToNat (d : List Char) : Nat :=
  d.foldl (fun a c => a * 10 + (c.toNat - '0'.toNat)) 0

/-- Python `f"{int(d):02d}"`: parse, then format zero-padded to at
least two digits. -/
def pyPad2 (d : List Char) : List Char :=
  let s := (toString (digitsToNat d)).data
  if s.length < 2 then '0' :: s else s

/-- Python `separator.join(words)`. -/
def joinSep (sep : Char) : List (List Char) → List Char
  | [] => []
  | [w] => w
  | w :: ws => w ++ sep :: joinSep sep ws

/-- Concatenation of a list of words (camel-case join). -/
def concatWords (ws : List (List Char)) : List Char := ws.foldr (· ++ ·) []

/-- `_reconstruct_name`.  The camel-case branch returns immediately
(and raises `IndexError`, modelled as `none`, when there are no words);
otherwise the case transform and separator are applied, and the
leading/trailing numbers are re-attached by the two if/elif pairs of
the source — the second pair builds its value from `main_text`, not
from the result of the first. -/
def reconstructName (comps : NameComponents) (pats : PatternChoice) :
    Option (List Char) :=
  match pats.casePat with
  | .camelcase =>
    match comps.words with
    | [] => none
    | w0 :: rest => some (pyLowerWord w0 ++ concatWords (rest.map pyCapWord))
  | c =>
    let words :=
      match c with
      | .lowercase => comps.words.map pyLowerWord
      | .uppercase => comps.words.map pyUpperWord
      | .capitalized => comps.words.map pyCapWord
      | _ => comps.words
    let sep : Char :=
      match pats.sepPat with
      | .underscore => '_'
      | .hyphen => '-'
      | .space => ' '
      | .other => '_'
    let mainText := joinSep sep words
    let padded : Bool := pats.numbering == some "padded_number"
    let result1 :=
      match comps.prefixNumber with
      | some p => (if padded then pyPad2 p else p) ++ sep :: mainText
      | none => mainText
    let result2 :=
      match comps.suffixNumber with
      | some s => mainText ++ sep :: (if padded then pyPad2 s else s)
      | none => result1
    some result2

/-- `_standardize_name`: parse, then reconstruct. -/
def standardizeName (name : List Char) (pats : PatternChoice) : Option (List Char) :=
  reconstructName (parseNameComponents name) pats

/-! ## `difflib.SequenceMatcher.ratio` and the relocation scorer

The names compared are far below difflib's autojunk threshold of 200
characters and contain no junk, so `find_longest_match` is the plain
leftmost-longest search and `ratio` is `2 * M / T` with `M` the total
size of the recursively found matching blocks.  The nonnegative
rational scores are represented as explicit numerator/denominator
pairs (kept unreduced), compared exactly by cross-multiplication; the
Python floats 0.3 and 0.2 are modelled by the rationals they denote —
no comparison in the development is close enough to a tie for float
rounding to matter. -/

/-- A nonnegative rational score, as an unreduced fraction with a
positive denominator. -/
structure Frac where
  num : Nat
  den : Nat
deriving DecidableEq, Repr

/-- Exact comparison `x < y` of fractions. -/
def Frac.ltF (x y : Frac) : Prop := x.num * y.den < y.num * x.den

instance (x y : Frac) : Decidable (x.ltF y) := by
  unfold Frac.ltF; infer_instance

/-- `x + 0.2` (the containment bonus). -/
def Frac.addFifth (x : Frac) : Frac := ⟨5 * x.num + x.den, 5 * x.den⟩

/-- Length of the matching run of `a` and `b` ending at positions
`i`, `j` (0 when the characters differ or are out of range). -/
def endRun (a b : List Char) : Nat → Nat → Nat
  | 0, j => if (a[0]?).isSome ∧ a[0]? = b[j]? then 1 else 0
  | i + 1, j =>
    if (a[i + 1]?).isSome ∧ a[i + 1]? = b[j]? then
      match j with
      | 0 => 1
      | j' + 1 => endRun a b i j' + 1
    else 0

/-- `SequenceMatcher.find_longest_match` on the window
`a[alo:ahi]`, `b[blo:bhi]`: scan end positions in ascending `i`, then
ascending `j`, keeping the first block of each strictly larger size —
which yields the leftmost (lowest `i`, then lowest `j`) longest block.
Returns `(i, j, size)`. -/
def findLongestMatch (a b : List Char) (alo ahi blo bhi : Nat) : Nat × Nat × Nat :=
  (List.range' alo (ahi - alo)).foldl (fun best i =>
    (List.range' blo (bhi - blo)).foldl (fun best j =>
      let k := min (endRun a b i j) (min (i - alo + 1) (j - blo + 1))
      if k > best.2.2 then (i + 1 - k, j + 1 - k, k) else best) best)
    (alo, blo, 0)

/-- Total size of the matching blocks (`get_matching_blocks`): find the
longest match of the window, recurse left and right of it.  The fuel
always suffices, since each recursion level removes at least one
position from the window. -/
def matchTotalGo (a b : List Char) : Nat → Nat → Nat → Nat → Nat → Nat
  | 0, _, _, _, _ => 0
  | fuel + 1, alo, ahi, blo, bhi =>
    let m := findLongestMatch a b alo ahi blo bhi
    if m.2.2 = 0 then 0
    else
      matchTotalGo a b fuel alo m.1 blo m.2.1 + m.2.2 +
        matchTotalGo a b fuel (m.1 + m.2.2) ahi (m.2.1 + m.2.2) bhi

/-- The `M` of `ratio`. -/
def matchTotal (a b : List Char) : Nat :=
  matchTotalGo a b (a.length + b.length + 1) 0 a.length 0 b.length

/-- `SequenceMatcher(None, a, b).ratio()`: the fraction `2 * M / T`
(1.0 when both strings are empty, as in difflib's `_calculate_ratio`). -/
def ratioOf (a b : List Char) : Frac :=
  if a.length + b.length = 0 then ⟨1, 1⟩
  else ⟨2 * matchTotal a b, a.length + b.length⟩

/-! ## The folder graph and `_find_relocation_opportunities` -/

/-- A scanned folder tree (names only; the relocation scorer reads
nothing else). -/
inductive FolderTree where
  | node (name : String) (children : List FolderTree)
deriving Repr

/-- `_build_folder_graph`: one edge per parent/child pair, each child's
edge before the recursion into that child, siblings in order.  The
recursion is fuel-bounded (structurally, so that concrete graphs
evaluate definitionally); ample fuel is supplied below. -/
def graphEdgesGo : Nat → FsPath → List FolderTree → List (FsPath × FsPath)
  | 0, _, _ => []
  | _ + 1, _, [] => []
  | fuel + 1, p, .node n cs :: rest =>
    (p, p ++ [n]) :: (graphEdgesGo fuel (p ++ [n]) cs ++ graphEdgesGo fuel p rest)

/-- Fuel that is ample for the trees the development builds. -/
def treeFuel : Nat := 64

/-- The edge list of the graph built from a scanned tree whose root
directory is the tree's root node. -/
def graphEdges : FolderTree → List (FsPath × FsPath)
  | .node n cs => graphEdgesGo treeFuel [n] cs

/-- The graph's nodes in insertion order (`networkx` iterates nodes in
the order `add_edge` first mentioned them). -/
def nodesInOrder (edges : List (FsPath × FsPath)) : List FsPath :=
  edges.foldl (fun acc e =>
    let acc1 := if e.1 ∈ acc then acc else acc ++ [e.1]
    if e.2 ∈ acc1 then acc1 else acc1 ++ [e.2]) []

/-- The predecessor list of a node. -/
def predecessorsOf (edges : List (FsPath × FsPath)) (v : FsPath) : List FsPath :=
  (edges.filter (fun e => decide (e.2 = v))).map (·.1)

/-- `graph.in_degree(v)`. -/
def inDegreeOf (edges : List (FsPath × FsPath)) (v : FsPath) : Nat :=
  (predecessorsOf edges v).length

/-- A lowercased name as characters (`os.path.basename(p).lower()`). -/
def lowerChars (s : String) : List Char := s.data.map Char.toLower

/-- Python's substring test `sub in s`. -/
def containsSub (sub s : List Char) : Bool :=
  (List.range (s.length + 1)).any (fun i => sub.isPrefixOf (s.drop i))

/-- `_find_relocation_opportunities`: for every non-root node, score
every other node except the node itself and its current parent by name
similarity plus a 0.2 containment bonus; the first candidate strictly
above the running best (which starts at the 0.3 floor) wins; at most
one relocation per node. -/
def findRelocationOpportunities (edges : List (FsPath × FsPath)) :
    List (FsPath × FsPath) :=
  (nodesInOrder edges).foldl (fun acc node =>
    if inDegreeOf edges node = 0 then acc
    else
      match predecessorsOf edges node with
      | [] => acc
      | currentParent :: _ =>
        let nodeName := lowerChars (basenameOf node)
        let best := (nodesInOrder edges).foldl (fun (best : Frac × Option FsPath) pp =>
          if pp = currentParent ∨ pp = node then best
          else
            let parentName := lowerChars (basenameOf pp)
            let score0 := ratioOf nodeName parentName
            let score :=
              if containsSub nodeName parentName || containsSub parentName nodeName then
                score0.addFifth
              else score0
            if best.1.ltF score then (score, some pp) else best) (⟨3, 10⟩, none)
        match best.2 with
        | some m => acc ++ [(node, m)]
        | none => acc) []

/-- Following the spec's words, for comparison with `selectUndoJournal`:
"the most recently written journal file" of any batch — the last entry
of the journal directory in write order (entries are appended in write
order, and file names embed strictly increasing timestamps). -/
def specMostRecentJournalName (store : JournalStore) : Option String :=
  (journalNames store).getLast?

/-! ## Helper lemmas -/

theorem chLe_refl (a : List Char) : chLe a a = true := by
  induction a with
  | nil => rfl
  | cons c cs ih => simp [chLe, ih]

theorem chLe_total (a b : List Char) : chLe a b = true ∨ chLe b a = true := by
  induction a generalizing b with
  | nil => left; rfl
  | cons c cs ih =>
    cases b with
    | nil => right; rfl
    | cons d ds =>
      by_cases hcd : c = d
      · subst hcd
        rcases ih ds with h | h
        · left; simp [chLe, h]
        · right; simp [chLe, h]
      · rcases lt_trichotomy c d with h | h | h
        · left; simp [chLe, hcd, h]
        · exact absurd h hcd
        · right; simp [chLe, Ne.symm hcd, h]

theorem chLe_trans {a b c : List Char} (hab : chLe a b = true) (hbc : chLe b c = true) :
    chLe a c = true := by
  induction a generalizing b c with
  | nil => rfl
  | cons x xs ih =>
    cases b with
    | nil => simp [chLe] at hab
    | cons y ys =>
      cases c with
      | nil => simp [chLe] at hbc
      | cons z zs =>
        by_cases hxy : x = y
        · subst hxy
          simp only [chLe, if_pos rfl] at hab
          by_cases hyz : x = z
          · subst hyz
            simp only [chLe, if_pos rfl] at hbc ⊢
            exact ih hab hbc
          · simp only [chLe, if_neg hyz] at hbc ⊢
            exact hbc
        · simp only [chLe, if_neg hxy, decide_eq_true_eq] at hab
          by_cases hyz : y = z
          · subst hyz
            simp [chLe, hxy, hab]
          · simp only [chLe, if_neg hyz, decide_eq_true_eq] at hbc
            have hxz : x < z := lt_trans hab hbc
            simp [chLe, ne_of_lt hxz, hxz]

theorem strLe_refl (a : String) : strLe a a = true := chLe_refl a.data

theorem strLe_total (a b : String) : strLe a b = true ∨ strLe b a = true :=
  chLe_total a.data b.data

theorem strLe_trans {a b c : String} (hab : strLe a b = true) (hbc : strLe b c = true) :
    strLe a c = true := chLe_trans hab hbc

theorem mem_insertLe {x y : String} {l : List String} :
    y ∈ insertLe x l ↔ y = x ∨ y ∈ l := by
  induction l with
  | nil => simp [insertLe]
  | cons a as ih =>
    simp only [insertLe]
    split
    · simp [or_comm, or_assoc, or_left_comm]
    · simp [ih]; tauto

theorem mem_sortLe {y : String} {l : List String} : y ∈ sortLe l ↔ y ∈ l := by
  induction l with
  | nil => simp [sortLe]
  | cons a as ih => simp [sortLe, mem_insertLe, ih]

/-- Ascending sortedness as a chain. -/
def chainLeSorted (l : List String) : Prop := l.Chain' (fun u v => strLe u v = true)

theorem insertLe_head {x w : String} {l : List String}
    (hw : (insertLe x l).head? = some w) : w = x ∨ l.head? = some w := by
  cases l with
  | nil => simp [insertLe] at hw; simp [hw]
  | cons a as =>
    simp only [insertLe] at hw
    split at hw
    · simp at hw; simp [hw]
    · simp at hw; simp [hw]

theorem insertLe_sorted {x : String} {l : List String} (h : chainLeSorted l) :
    chainLeSorted (insertLe x l) := by
  induction l with
  | nil => simp [insertLe, chainLeSorted]
  | cons a as ih =>
    simp only [insertLe]
    split
    · rename_i hxa
      exact List.Chain'.cons hxa h
    · rename_i hxa
      have hax : strLe a x = true := by
        rcases strLe_total x a with h' | h'
        · exact absurd h' hxa
        · exact h'
      refine List.chain'_cons'.mpr ⟨?_, ih h.tail⟩
      intro w hw
      rcases insertLe_head hw with rfl | hw'
      · exact hax
      · exact (List.chain'_cons'.mp h).1 w hw'

theorem sortLe_sorted (l : List String) : chainLeSorted (sortLe l) := by
  induction l with
  | nil => simp [sortLe, chainLeSorted]
  | cons a as ih => exact insertLe_sorted ih

theorem sorted_getLast_max {l : List String} (h : chainLeSorted l) {y : String}
    (hy : l.getLast? = some y) : ∀ x ∈ l, strLe x y = true := by
  induction l with
  | nil => simp at hy
  | cons a as ih =>
    intro x hx
    cases as with
    | nil =>
      simp at hy hx
      subst hy; subst hx; exact strLe_refl _
    | cons b bs =>
      have hy' : (b :: bs).getLast? = some y := by
        simpa [List.getLast?] using hy
      have hab : strLe a b = true := (List.chain'_cons.mp h).1
      have htail := ih (List.chain'_cons.mp h).2 hy'
      rcases List.mem_cons.mp hx with rfl | hx'
      · exact strLe_trans hab (htail b (List.mem_cons_self _ _))
      · exact htail x hx'

/-- `applyLoop` over a concatenation: the whole tail is skipped when
the front fails, mirroring the single try/except around the loop. -/
theorem applyLoop_append (fs : FS) (l1 l2 : List Suggestion) :
    applyLoop fs (l1 ++ l2) =
      (match applyLoop fs l1 with
       | (fs', none) => (fs', none)
       | (fs', some recs) =>
         match applyLoop fs' l2 with
         | (fs'', none) => (fs'', none)
         | (fs'', some recs') => (fs'', some (recs ++ recs'))) := by
  induction l1 generalizing fs with
  | nil =>
    simp only [List.nil_append, applyLoop]
    rcases applyLoop fs l2 with ⟨fs'', orecs⟩
    cases orecs <;> simp
  | cons p ps ih =>
    rcases happ : applySuggestion fs p with ⟨fsp, orec⟩
    cases orec with
    | none => simp only [List.cons_append, applyLoop, happ]
    | some rec0 =>
      simp only [List.cons_append, applyLoop, happ, List.append_eq]
      rw [ih fsp]
      rcases hps : applyLoop fsp ps with ⟨fsq, orecs⟩
      cases orecs with
      | none => rfl
      | some recs1 =>
        simp only
        rcases hl2 : applyLoop fsq l2 with ⟨fsr, orecs2⟩
        cases orecs2 with
        | none => rfl
        | some recs2 => simp

/-! ## Claim theorems -/

/-- C1, counterexample.  The claim says an exception while applying one
suggestion is caught, the suggestion is marked failed, and the batch
*continues* with the remaining suggestions.  In the code the single
try/except wraps the whole loop: in a batch whose first suggestion (a
merge of the missing folder `x`) raises, `apply_changes` returns false
but the second suggestion (a rename of the existing folder `a` to `b`)
is never applied — `a` is untouched, no `b` exists — and no record of
any status is written (the journal directory stays empty). -/
theorem applyContinuesAfterException_counterexample :
    apply_changes ⟨[["a"]], []⟩ [] "t1"
        [.mergeSimilarFolders [["x"]] "m", .renameForConsistency [(["a"], "b")]] =
      (false, ⟨[["a"], ["m"]], []⟩, [])
    ∧ ¬ (FS.pathExists ⟨[["a"], ["m"]], []⟩ ["b"])
    ∧ FS.pathExists ⟨[["a"], ["m"]], []⟩ ["a"] := by decide

/-- C1 (amended): an exception raised while applying one suggestion is
caught at the *batch* level: `apply_changes` stops, the remaining
suggestions of the batch are not attempted (the final filesystem is
exactly the state at the failure, whatever the tail of the batch is),
no suggestion is marked failed (no journal file is written at all),
and the call returns false. -/
theorem applyExceptionAbortsBatch (fs fs1 fs2 : FS) (store : JournalStore)
    (tsName : String) (pre : List Suggestion) (s : Suggestion) (post : List Suggestion)
    (recs : List ChangeRecord)
    (hpre : applyLoop fs pre = (fs1, some recs))
    (hs : applySuggestion fs1 s = (fs2, none)) :
    apply_changes fs store tsName (pre ++ s :: post) = (false, fs2, store) := by
  have hloop : applyLoop fs (pre ++ s :: post) = (fs2, none) := by
    rw [applyLoop_append, hpre]
    simp only [applyLoop, hs]
  simp only [apply_changes, hloop]

/-- C1 (amended), witness: the batch of the counterexample scenario,
split as an empty prefix, the raising merge, and a one-suggestion tail. -/
theorem applyExceptionAbortsBatch_witness :
    apply_changes ⟨[["a"]], []⟩ [] "t2"
        ([] ++ Suggestion.mergeSimilarFolders [["x"]] "m" ::
          [Suggestion.renameForConsistency [(["a"], "b")]]) =
      (false, ⟨[["a"], ["m"]], []⟩, []) :=
  applyExceptionAbortsBatch ⟨[["a"]], []⟩ ⟨[["a"]], []⟩ ⟨[["a"], ["m"]], []⟩ [] "t2"
    [] (Suggestion.mergeSimilarFolders [["x"]] "m")
    [Suggestion.renameForConsistency [(["a"], "b")]] []
    (by decide) (by decide)

/-- C2, counterexample.  The claim says one journal file is written
whether apply returns true or false.  In a batch whose only suggestion
raises (a merge of the missing folder `nope`), `apply_changes` returns
false and the journal directory is still empty: the journal write sits
after the loop inside the same try, so nothing is written. -/
theorem applyAlwaysJournals_counterexample :
    apply_changes ⟨[], [(["f"], 0)]⟩ [] "t1" [.mergeSimilarFolders [["nope"]] "m"] =
      (false, ⟨[["m"]], [(["f"], 0)]⟩, []) := by decide

/-- C2 (amended): exactly one journal file recording the batch is
written before `apply_changes` returns **true**; when an exception
makes it return false, no journal file is written (the journal
directory is unchanged). -/
theorem applyJournalsExactlyOnSuccess (fs : FS) (store : JournalStore)
    (tsName : String) (approved : List Suggestion) :
    ∃ recs, (apply_changes fs store tsName approved).2.2 =
      (if (apply_changes fs store tsName approved).1 = true
       then store ++ [("changes_" ++ tsName ++ ".json", JournalContent.applyBatch recs)]
       else store) := by
  unfold apply_changes
  rcases applyLoop fs approved with ⟨fs', orecs⟩
  cases orecs with
  | none => exact ⟨[], rfl⟩
  | some recs => exact ⟨recs, rfl⟩

/-- C3, counterexample.  Folders `a` (file `f`) and `b` (file `g`) are
merged into `m`; the merge round-trip claim says undo restores each
folder's original file membership.  Undo recreates `a` and `b`, but
`_move_folder_contents(new_folder, original_path)` pours the *whole*
target into the first folder of the list: both files end in `a`, and
`g` — originally in `b` — is not restored to `b`. -/
theorem mergeUndoRestoresMembership_counterexample :
    (let applied := apply_changes ⟨[["a"], ["b"]], [(["a", "f"], 0), (["b", "g"], 1)]⟩
        [] "t1" [.mergeSimilarFolders [["a"], ["b"]] "m"]
     let undone := undo_last_change 100 applied.2.1 applied.2.2
     applied.1 = true ∧ undone.1 = true ∧
       undone.2.1.files = [(["a", "f"], 0), (["a", "g"], 1)] ∧
       ¬ undone.2.1.isFile ["b", "g"]) := by decide

/-- C3 (amended): applying `merge_similar_folders` and then undoing
restores the original **set of folder paths**, but not each folder's
file membership: undo moves the merged target's entire contents into
the first-listed original folder and recreates the remaining original
folders empty — as in the representative two-folder scenario, where
both files end up in the first folder `a` and `b` comes back empty. -/
theorem mergeUndoRestoresPathsNotMembership :
    (let applied := apply_changes ⟨[["a"], ["b"]], [(["a", "f"], 0), (["b", "g"], 1)]⟩
        [] "t1" [.mergeSimilarFolders [["a"], ["b"]] "m"]
     let undone := undo_last_change 100 applied.2.1 applied.2.2
     applied.1 = true ∧ undone.1 = true ∧
       undone.2.1.dirs = [["a"], ["b"]] ∧
       undone.2.1.files = [(["a", "f"], 0), (["a", "g"], 1)] ∧
       undone.2.2 = []) := by decide

/-- C4, counterexample.  The journal records that `a` was renamed to
`b`, but no `b` exists any more — the path no longer matches its
recorded state.  The claim says undo catches the error, returns false
and leaves the journal intact; in the code the rename undo branch is
guarded by an existence check, so the mismatch is skipped silently:
undo returns **true** and **deletes** the journal file. -/
theorem undoMismatchFails_counterexample :
    undo_last_change 100 ⟨[], []⟩
        [("changes_1.json", .applyBatch [⟨.renameForConsistency [(["a"], "b")], "completed",
           some (.renamed [(["a"], ["b"])])⟩])] =
      (true, ⟨[], []⟩, []) := by decide

/-- C4 (amended): a path mismatch makes undo return false with the
journal file left intact only when it raises — as when the merge undo
branch reads a recorded target folder that no longer exists (shown
here: the journal records merged folder `m`, which is missing;
`_move_folder_contents` raises, the error is caught, undo returns
false, and the journal file is still present).  Mismatches at steps
guarded by existence checks are skipped silently and undo can still
return true and delete the journal. -/
theorem undoMismatchRaiseFailsJournalIntact :
    undo_last_change 100 ⟨[], []⟩
        [("changes_1.json", .applyBatch [⟨.mergeSimilarFolders [["a"]] "m", "completed",
           some (.newFolder ["m"])⟩])] =
      (false, ⟨[["a"]], []⟩,
       [("changes_1.json", .applyBatch [⟨.mergeSimilarFolders [["a"]] "m", "completed",
          some (.newFolder ["m"])⟩])]) := by decide

/-- C5, counterexample.  The journal directory holds an apply journal
`changes_1.json` and a *later*-written explode journal
`explode_2.json`.  The claim says undo operates on the most recently
written journal file of any batch, explode batches being journaled the
same way; but undo filters on the `changes_` prefix, so it selects and
consumes `changes_1.json` while the most recently written file is
`explode_2.json` — which undo never touches. -/
theorem undoUsesMostRecentAnyBatch_counterexample :
    (selectUndoJournal
        [("changes_1.json", .applyBatch []), ("explode_2.json", .explodeBatch [] [])] =
      some "changes_1.json")
    ∧ (specMostRecentJournalName
        [("changes_1.json", .applyBatch []), ("explode_2.json", .explodeBatch [] [])] =
      some "explode_2.json")
    ∧ ("changes_1.json" : String) ≠ "explode_2.json"
    ∧ (undo_last_change 100 ⟨[], []⟩
        [("changes_1.json", .applyBatch []), ("explode_2.json", .explodeBatch [] [])] =
      (true, ⟨[], []⟩, [("explode_2.json", .explodeBatch [] [])])) := by decide

/-- C6 (evaluation at the failing input).  The tree has one file
`a/b/f` and the two directories `a` and `a/b`.  Explode moves the one
file to the root (so the N-files part of the claim holds here), but
the deletion pass removes only `a/b`: `os.walk(topdown=False)` listed
`b` among `a`'s subdirectories before deleting it, so the now-empty
`a` is kept — one non-root directory remains where the claim (and the
function's own docstring, "delete all empty folders") requires zero. -/
theorem explodeLeavesEmptyDir_evaluation :
    explode_folder_structure ⟨[["a"], ["a", "b"]], [(["a", "b", "f"], 0)]⟩ [] "t1" =
      (true, ⟨[["a"]], [(["f"], 0)]⟩,
       [("explode_t1.json", .explodeBatch [(["a", "b", "f"], ["f"])] [["a", "b"]])])
    ∧ ((⟨[["a"]], [(["f"], 0)]⟩ : FS).dirs ≠ []) := by decide

/-- C9 (evaluation at the failing input).  The name `1_foo_2` parses
into leading number `1`, word `foo` and trailing number `2`; the claim
(and the evident intent of `_reconstruct_name`) is that both numbers
are re-attached.  But the suffix branch rebuilds the result from
`main_text` instead of the prefix-attached result, so standardizing to
lowercase/underscore (numbering not padded) yields `foo_2` — the
leading `1` is dropped. -/
theorem reconstructDropsLeadingNumber_evaluation :
    ((parseNameComponents "1_foo_2".data).prefixNumber = some "1".data
      ∧ (parseNameComponents "1_foo_2".data).suffixNumber = some "2".data
      ∧ (parseNameComponents "1_foo_2".data).words = ["foo".data])
    ∧ standardizeName "1_foo_2".data ⟨.lowercase, .underscore, none⟩ = some "foo_2".data
    ∧ standardizeName "1_foo_2".data ⟨.lowercase, .underscore, none⟩ ≠ some "1_foo_2".data := by
  decide

/-- C10: the relocation scorer excludes only the node itself and its
current parent from candidate parents — descendants are candidates.
In the scanned tree `r / a / ab`, the suggested new parent computed
for folder `a` is its own child `ab` (name similarity 2/3 plus the 0.2
substring bonus beats the 0.3 floor), a strict descendant of `a`. -/
theorem relocationTargetsDescendant :
    findRelocationOpportunities (graphEdges (.node "r" [.node "a" [.node "ab" []]])) =
      [(["r", "a"], ["r", "a", "ab"])]
    ∧ strictDescendant ["r", "a"] ["r", "a", "ab"] := by decide

/-- C5 (amended): undo operates on the journal file with the
lexicographically greatest name among those starting with `changes_` —
the most recently written **apply** journal, since apply journal names
embed increasing timestamps; explode batches are journaled under an
`explode_` prefix and are never selected.  Undo replays that journal's
change list in reverse order and deletes exactly that file on success
(on a replay failure the journal directory is unchanged). -/
theorem undoSelectsLatestChangesJournal (fuel : Nat) (fs : FS) (store : JournalStore)
    (n : String) (hsel : selectUndoJournal store = some n) :
    (strStartsWith n "changes_" = true
      ∧ n ∈ journalNames store
      ∧ ∀ m ∈ journalNames store, strStartsWith m "changes_" = true → strLe m n = true)
    ∧ (∀ changes, lookupJournal store n = some (.applyBatch changes) →
        undo_last_change fuel fs store =
          (match undoReplay fuel fs changes.reverse with
           | (fs', true) => (true, fs', removeJournal store n)
           | (fs', false) => (false, fs', store))) := by
  constructor
  · unfold selectUndoJournal at hsel
    have hmemS : n ∈ sortLe ((journalNames store).filter
        (fun m => strStartsWith m "changes_")) := by
      have h1 : n ∈ (sortLe ((journalNames store).filter
          (fun m => strStartsWith m "changes_"))).getLast? := Option.mem_def.mpr hsel
      obtain ⟨h, rfl⟩ := List.mem_getLast?_eq_getLast h1
      exact List.getLast_mem h
    have hmemF : n ∈ (journalNames store).filter (fun m => strStartsWith m "changes_") :=
      mem_sortLe.mp hmemS
    have hmem := List.mem_filter.mp hmemF
    refine ⟨hmem.2, hmem.1, ?_⟩
    intro m hm hpre
    have hmF : m ∈ (journalNames store).filter (fun m => strStartsWith m "changes_") :=
      List.mem_filter.mpr ⟨hm, hpre⟩
    exact sorted_getLast_max (sortLe_sorted _) hsel m (mem_sortLe.mpr hmF)
  · intro changes hlook
    simp only [undo_last_change, hsel, hlook]

/-- C5 (amended), witness: the two-journal store of the counterexample
scenario — the selected file starts with `changes_`, is in the
directory, and is lexicographically maximal among the `changes_`
files. -/
theorem undoSelectsLatestChangesJournal_witness :
    strStartsWith "changes_1.json" "changes_" = true
    ∧ "changes_1.json" ∈ journalNames
        [("changes_1.json", JournalContent.applyBatch []),
         ("explode_2.json", JournalContent.explodeBatch [] [])]
    ∧ ∀ m ∈ journalNames
        [("changes_1.json", JournalContent.applyBatch []),
         ("explode_2.json", JournalContent.explodeBatch [] [])],
        strStartsWith m "changes_" = true → strLe m "changes_1.json" = true :=
  (undoSelectsLatestChangesJournal 100 ⟨[], []⟩
    [("changes_1.json", JournalContent.applyBatch []),
     ("explode_2.json", JournalContent.explodeBatch [] [])]
    "changes_1.json" (by decide)).1

/-- A nonempty name always gets a case bucket. -/
theorem classifyCase_cons_eq_some (c : Char) (cs : List Char) :
    ∃ t, classifyCase (c :: cs) = some t := by
  simp only [classifyCase]
  repeat' split
  all_goals exact ⟨_, rfl⟩

/-- The case loop on all-nonempty names succeeds and each bucket holds
exactly the names the classifier sends there, in order. -/
theorem caseLoop_ok (names : List (List Char)) (acc : CaseBuckets)
    (h : ∀ n ∈ names, n ≠ []) :
    ∃ b, caseLoop names acc = some b
      ∧ b.lowercase = acc.lowercase ++
          names.filter (fun n => decide (classifyCase n = some CaseTag.lowercase))
      ∧ b.uppercase = acc.uppercase ++
          names.filter (fun n => decide (classifyCase n = some CaseTag.uppercase))
      ∧ b.capitalized = acc.capitalized ++
          names.filter (fun n => decide (classifyCase n = some CaseTag.capitalized))
      ∧ b.camelcase = acc.camelcase ++
          names.filter (fun n => decide (classifyCase n = some CaseTag.camelcase))
      ∧ b.mixedCase = acc.mixedCase ++
          names.filter (fun n => decide (classifyCase n = some CaseTag.mixed)) := by
  induction names generalizing acc with
  | nil => exact ⟨acc, rfl, by simp, by simp, by simp, by simp, by simp⟩
  | cons n ns ih =>
    have hn : n ≠ [] := h n (List.mem_cons_self _ _)
    obtain ⟨c, cs, rfl⟩ : ∃ c cs, n = c :: cs := by
      cases n with
      | nil => exact absurd rfl hn
      | cons c cs => exact ⟨c, cs, rfl⟩
    obtain ⟨t, ht⟩ := classifyCase_cons_eq_some c cs
    have h' : ∀ m ∈ ns, m ≠ [] := fun m hm => h m (List.mem_cons_of_mem _ hm)
    obtain ⟨b, hb, h1, h2, h3, h4, h5⟩ := ih (acc.add t (c :: cs)) h'
    refine ⟨b, ?_, ?_, ?_, ?_, ?_, ?_⟩
    · simp only [caseLoop, ht]
      exact hb
    all_goals cases t <;> simp_all [CaseBuckets.add, List.filter_cons, ht]

/-- The separator loop: each bucket holds exactly the names the
classifier sends there, in order. -/
theorem sepLoop_ok (names : List (List Char)) (acc : SepBuckets) :
    (sepLoop names acc).underscore = acc.underscore ++
        names.filter (fun n => decide (classifySeparator n = SepTag.underscore))
    ∧ (sepLoop names acc).hyphen = acc.hyphen ++
        names.filter (fun n => decide (classifySeparator n = SepTag.hyphen))
    ∧ (sepLoop names acc).space = acc.space ++
        names.filter (fun n => decide (classifySeparator n = SepTag.space))
    ∧ (sepLoop names acc).noSeparator = acc.noSeparator ++
        names.filter (fun n => decide (classifySeparator n = SepTag.noSeparator))
    ∧ (sepLoop names acc).mixedSep = acc.mixedSep ++
        names.filter (fun n => decide (classifySeparator n = SepTag.mixed)) := by
  induction names generalizing acc with
  | nil => simp [sepLoop]
  | cons n ns ih =>
    obtain ⟨h1, h2, h3, h4, h5⟩ := ih (acc.add (classifySeparator n) n)
    have hrw : sepLoop (n :: ns) acc = sepLoop ns (acc.add (classifySeparator n) n) := rfl
    rcases ht : classifySeparator n <;>
      simp_all [SepBuckets.add, List.filter_cons, ht]

/-- Counting survives dropping list entries the predicate cannot hit. -/
theorem countP_filter_of_imp {α : Type} (l : List α) (p q : α → Bool)
    (h : ∀ x ∈ l, p x = true → q x = true) :
    (l.filter q).countP p = l.countP p := by
  induction l with
  | nil => rfl
  | cons x xs ih =>
    have hx := h x (List.mem_cons_self _ _)
    have ih' := ih (fun y hy => h y (List.mem_cons_of_mem _ hy))
    by_cases hq : q x = true
    · simp [List.filter_cons, hq, List.countP_cons, ih']
    · have hp : p x = false := by
        cases hpx : p x
        · rfl
        · exact absurd (hx hpx) hq
      simp [List.filter_cons, hq, List.countP_cons, ih', hp]

/-- A nonempty name lands in exactly one case bucket. -/
theorem caseBucketCount_eq_one (names : List (List Char)) (h : ∀ n ∈ names, n ≠ [])
    (n : List Char) (hn : n ∈ names) : caseBucketCount names n = 1 := by
  obtain ⟨b, hb, h1, h2, h3, h4, h5⟩ := caseLoop_ok names ⟨[], [], [], [], []⟩ h
  obtain ⟨c, cs, rfl⟩ : ∃ c cs, n = c :: cs := by
    cases n with
    | nil => exact absurd rfl (h [] hn)
    | cons c cs => exact ⟨c, cs, rfl⟩
  obtain ⟨t, ht⟩ := classifyCase_cons_eq_some c cs
  unfold caseBucketCount analyzeCasePatterns
  rw [hb]
  simp only [Option.map_some']
  rw [countP_filter_of_imp]
  · simp only [List.countP_cons, List.countP_nil, h1, h2, h3, h4, h5, List.nil_append]
    cases t <;> simp [List.mem_filter, ht, hn]
  · intro x hx hp
    simp only [decide_eq_true_eq] at hp ⊢
    exact List.ne_nil_of_mem hp

/-- Every name lands in exactly one separator bucket. -/
theorem sepBucketCount_eq_one (names : List (List Char))
    (n : List Char) (hn : n ∈ names) : sepBucketCount names n = 1 := by
  obtain ⟨h1, h2, h3, h4, h5⟩ := sepLoop_ok names ⟨[], [], [], [], []⟩
  unfold sepBucketCount analyzeSeparatorPatterns
  rw [countP_filter_of_imp]
  · simp only [List.countP_cons, List.countP_nil, h1, h2, h3, h4, h5, List.nil_append]
    rcases ht : classifySeparator n <;> simp [List.mem_filter, ht, hn]
  · intro x hx hp
    simp only [decide_eq_true_eq] at hp ⊢
    exact List.ne_nil_of_mem hp

/-- C8, counterexample.  On the name list containing one empty name,
`_analyze_case_patterns` raises `IndexError` at `name[0]` (the empty
string is neither `islower` nor `isupper`): the empty name is placed
in **no** case bucket, so it is not in exactly one. -/
theorem caseBucketsPartition_counterexample :
    analyzeCasePatterns [[]] = none ∧ caseBucketCount [[]] [] = 0 := by decide

/-- C8 (amended): for every list of **nonempty** names, each name is
placed in exactly one case bucket and exactly one separator bucket (an
empty name instead makes the case classifier raise `IndexError`, so it
lands in no case bucket). -/
theorem caseAndSeparatorBucketsPartition (names : List (List Char))
    (h : ∀ n ∈ names, n ≠ []) :
    ∀ n ∈ names, caseBucketCount names n = 1 ∧ sepBucketCount names n = 1 :=
  fun n hn => ⟨caseBucketCount_eq_one names h n hn, sepBucketCount_eq_one names n hn⟩

/-- C8 (amended), witness: the two-name list `a`, `B-c`. -/
theorem caseAndSeparatorBucketsPartition_witness :
    caseBucketCount [['a'], ['B', '-', 'c']] ['a'] = 1
    ∧ sepBucketCount [['a'], ['B', '-', 'c']] ['a'] = 1 :=
  caseAndSeparatorBucketsPartition [['a'], ['B', '-', 'c']] (by decide) ['a'] (by decide)

/-- With path-distinct file entries, a path determines its identity. -/
theorem file_id_unique {fs : FS} (hnd : (fs.files.map (·.1)).Nodup)
    {p : FsPath} {i j : Nat} (hi : (p, i) ∈ fs.files) (hj : (p, j) ∈ fs.files) : i = j := by
  have := List.inj_on_of_nodup_map hnd hi hj rfl
  exact congrArg Prod.snd this

/-- With path-distinct entries the `find?` of `moveFileTo` hits the
entry of the source path. -/
theorem find_file_entry {fs : FS} (hnd : (fs.files.map (·.1)).Nodup)
    {s : FsPath} {i : Nat} (hs : (s, i) ∈ fs.files) :
    fs.files.find? (fun e => decide (e.1 = s)) = some (s, i) := by
  have hex : (fs.files.find? (fun e => decide (e.1 = s))).isSome := by
    rw [List.find?_isSome]
    exact ⟨(s, i), hs, by simp⟩
  obtain ⟨e, he⟩ := Option.isSome_iff_exists.mp hex
  have hmem := List.mem_of_find?_eq_some he
  have hp : e.1 = s := by simpa using List.find?_some he
  obtain ⟨p, j⟩ := e
  cases hp
  have : j = i := file_id_unique hnd hmem hs
  subst this
  exact he

/-- `moveFileTo` of an existing source to a file-free destination:
the explicit file list. -/
theorem moveFileTo_files {fs : FS} (hnd : (fs.files.map (·.1)).Nodup)
    {s d : FsPath} {i : Nat} (hs : (s, i) ∈ fs.files) (hd : ¬ fs.isFile d) :
    (fs.moveFileTo s d).files =
      fs.files.filter (fun x => decide (x.1 ≠ s)) ++ [(d, i)] := by
  unfold FS.moveFileTo
  rw [find_file_entry hnd hs]
  simp only
  congr 1
  apply List.filter_congr
  intro x hx
  have hxd : x.1 ≠ d := fun h => hd ⟨x, hx, h⟩
  simp [hxd]

/-- `moveFileTo` never changes the directory set. -/
theorem moveFileTo_dirs (fs : FS) (s d : FsPath) : (fs.moveFileTo s d).dirs = fs.dirs := by
  unfold FS.moveFileTo
  split <;> rfl

/-- Membership in the files after a `moveFileTo`. -/
theorem moveFileTo_mem {fs : FS} (hnd : (fs.files.map (·.1)).Nodup)
    {s d : FsPath} {i : Nat} (hs : (s, i) ∈ fs.files) (hd : ¬ fs.isFile d)
    (e : FsPath × Nat) :
    e ∈ (fs.moveFileTo s d).files ↔ (e ∈ fs.files ∧ e.1 ≠ s) ∨ e = (d, i) := by
  rw [moveFileTo_files hnd hs hd]
  simp [List.mem_filter]

/-- Path-distinctness of the file entries survives `moveFileTo`. -/
theorem moveFileTo_nodup {fs : FS} (hnd : (fs.files.map (·.1)).Nodup)
    {s d : FsPath} {i : Nat} (hs : (s, i) ∈ fs.files) (hd : ¬ fs.isFile d) :
    ((fs.moveFileTo s d).files.map (·.1)).Nodup := by
  rw [moveFileTo_files hnd hs hd]
  rw [List.map_append, List.nodup_append]
  refine ⟨?_, by simp, ?_⟩
  · exact ((List.filter_sublist _).map _).nodup hnd
  · intro x hx
    simp only [List.mem_map, List.mem_filter] at hx
    obtain ⟨y, ⟨hy, -⟩, rfl⟩ := hx
    simp only [List.map_cons, List.map_nil, List.mem_singleton]
    intro hxd
    exact hd ⟨y, hy, hxd⟩

/-- On a file path outside the directory set, `moveAny` is the plain
file move. -/
theorem moveAny_eq_moveFileTo {fs : FS} {s : FsPath} (hne : s ≠ []) (hdir : s ∉ fs.dirs)
    (d : FsPath) : fs.moveAny s d = fs.moveFileTo s d := by
  unfold FS.moveAny
  rw [if_neg]
  intro h
  rcases h with h | h
  · exact hne h
  · exact hdir h

/-- The loose-file apply loop under its normal conditions: no name is
empty or a directory, every source is a file, base names are distinct,
and no destination name exists at the target.  Every file moves to
`target/basename`, in order; nothing else changes. -/
theorem glfApplyLoop_ok (target : FsPath) :
    ∀ (srcs : List FsPath) (fs : FS) (acc : List (FsPath × FsPath)),
    (fs.files.map (·.1)).Nodup →
    (srcs.map basenameOf).Nodup →
    (∀ s ∈ srcs, s ≠ [] ∧ s ∉ fs.dirs ∧ fs.isFile s) →
    (∀ s ∈ srcs, ¬ fs.pathExists (target ++ [basenameOf s])) →
    ∃ fs', glfApplyLoop fs target srcs acc =
        (fs', acc ++ srcs.map (fun s => (s, target ++ [basenameOf s])))
      ∧ fs'.dirs = fs.dirs
      ∧ (fs'.files.map (·.1)).Nodup
      ∧ (∀ e, e ∈ fs'.files ↔
          ((e ∈ fs.files ∧ e.1 ∉ srcs)
            ∨ ∃ s ∈ srcs, ∃ i, (s, i) ∈ fs.files ∧ e = (target ++ [basenameOf s], i))) := by
  intro srcs
  induction srcs with
  | nil =>
    intro fs acc hnd _ _ _
    exact ⟨fs, by simp [glfApplyLoop], rfl, hnd, by simp⟩
  | cons s ss ih =>
    intro fs acc hnd hbn hsrc hcoll
    obtain ⟨hsne, hsdir, hsfile⟩ := hsrc s (List.mem_cons_self _ _)
    obtain ⟨⟨sp, i⟩, hsi, hsp⟩ := hsfile
    simp only at hsp
    rw [hsp] at hsi
    have hcolls := hcoll s (List.mem_cons_self _ _)
    have hnotexists : ¬ fs.pathExists (target ++ [basenameOf s]) := hcolls
    have hdfile : ¬ fs.isFile (target ++ [basenameOf s]) := fun h => hcolls (Or.inr h)
    have hsrcs_nodup : (s :: ss).Nodup := hbn.of_map
    have hstep : glfApplyLoop fs target (s :: ss) acc =
        glfApplyLoop (fs.moveFileTo s (target ++ [basenameOf s])) target ss
          (acc ++ [(s, target ++ [basenameOf s])]) := by
      simp only [glfApplyLoop]
      rw [if_neg hnotexists,
        if_pos (show fs.pathExists s from Or.inr ⟨(s, i), hsi, rfl⟩),
        moveAny_eq_moveFileTo hsne hsdir]
    set fs1 := fs.moveFileTo s (target ++ [basenameOf s]) with hfs1
    have hmem1 := moveFileTo_mem hnd hsi hdfile
    have hdirs1 : fs1.dirs = fs.dirs := moveFileTo_dirs fs s _
    have hnd1 : (fs1.files.map (·.1)).Nodup := moveFileTo_nodup hnd hsi hdfile
    -- the invariant for the tail
    have hbn' : (ss.map basenameOf).Nodup := hbn.of_cons
    have hbn_head : basenameOf s ∉ ss.map basenameOf := by
      have := hbn
      rw [List.map_cons, List.nodup_cons] at this
      exact this.1
    have hsrc' : ∀ t ∈ ss, t ≠ [] ∧ t ∉ fs1.dirs ∧ fs1.isFile t := by
      intro t ht
      obtain ⟨htne, htdir, htfile⟩ := hsrc t (List.mem_cons_of_mem _ ht)
      obtain ⟨⟨tp, j⟩, htj, htp⟩ := htfile
      simp only at htp
      rw [htp] at htj
      refine ⟨htne, by rwa [hdirs1], ?_⟩
      have hts : t ≠ s := by
        have := hsrcs_nodup
        rw [List.nodup_cons] at this
        intro hts; exact this.1 (hts ▸ ht)
      exact ⟨(t, j), (hmem1 (t, j)).mpr (Or.inl ⟨htj, hts⟩), rfl⟩
    have hcoll' : ∀ t ∈ ss, ¬ fs1.pathExists (target ++ [basenameOf t]) := by
      intro t ht hx
      have hct := hcoll t (List.mem_cons_of_mem _ ht)
      rcases hx with hx | hx
      · rcases hx with hx | hx
        · exact hct (Or.inl (Or.inl hx))
        · rw [hdirs1] at hx
          exact hct (Or.inl (Or.inr hx))
      · obtain ⟨e, he, hep⟩ := hx
        rcases (hmem1 e).mp he with ⟨hef, -⟩ | rfl
        · exact hct (Or.inr ⟨e, hef, hep⟩)
        · have heq : target ++ [basenameOf s] = target ++ [basenameOf t] := hep
          have hbe : basenameOf s = basenameOf t := by
            have h2 := List.append_cancel_left heq
            simpa using h2
          exact hbn_head (hbe ▸ List.mem_map_of_mem basenameOf ht)
    obtain ⟨fs2, heq2, hdirs2, hnd2, hmem2⟩ :=
      ih fs1 (acc ++ [(s, target ++ [basenameOf s])]) hnd1 hbn' hsrc' hcoll'
    refine ⟨fs2, ?_, by rw [hdirs2, hdirs1], hnd2, ?_⟩
    · rw [hstep, heq2]
      simp [List.append_assoc]
    · intro e
      rw [hmem2 e]
      constructor
      · rintro (⟨he1, hnotss⟩ | ⟨t, ht, i', hti', rfl⟩)
        · rcases (hmem1 e).mp he1 with ⟨hef, hes⟩ | rfl
          · left
            refine ⟨hef, ?_⟩
            simp only [List.mem_cons, not_or]
            exact ⟨hes, hnotss⟩
          · right
            exact ⟨s, List.mem_cons_self _ _, i, hsi, rfl⟩
        · rcases (hmem1 (t, i')).mp hti' with ⟨htf, -⟩ | heqq
          · right
            exact ⟨t, List.mem_cons_of_mem _ ht, i', htf, rfl⟩
          · exfalso
            have hts : t = target ++ [basenameOf s] := congrArg Prod.fst heqq
            have := (hsrc' t ht).2.2
            rw [hts] at ht
            have hfil := (hsrc (target ++ [basenameOf s])
              (List.mem_cons_of_mem _ ht)).2.2
            exact hdfile hfil
      · rintro (⟨hef, hne⟩ | ⟨t, ht, i', hti', rfl⟩)
        · simp only [List.mem_cons, not_or] at hne
          exact Or.inl ⟨(hmem1 e).mpr (Or.inl ⟨hef, hne.1⟩), hne.2⟩
        · rcases List.mem_cons.mp ht with rfl | htss
          · have hii : i' = i := file_id_unique hnd hti' hsi
            subst hii
            left
            refine ⟨(hmem1 _).mpr (Or.inr rfl), ?_⟩
            intro hmem
            have hfil := (hsrc (target ++ [basenameOf t])
              (List.mem_cons_of_mem _ hmem)).2.2
            exact hdfile hfil
          · have hts : t ≠ s := by
              have := hsrcs_nodup
              rw [List.nodup_cons] at this
              intro h; exact this.1 (h ▸ htss)
            exact Or.inr ⟨t, htss, i', (hmem1 (t, i')).mpr (Or.inl ⟨hti', hts⟩), rfl⟩

/-- The loose-file undo loop under its round-trip conditions: every
recorded destination is still a file (not a directory, not the root),
every recorded source path is vacant, recorded paths are distinct and
no source path equals a destination path.  Every file moves back, in
order; nothing else changes. -/
theorem moveBackLoop_ok :
    ∀ (moves : List (FsPath × FsPath)) (fs : FS),
    (fs.files.map (·.1)).Nodup →
    (∀ m ∈ moves, m.2 ∉ fs.dirs ∧ m.2 ≠ [] ∧ fs.isFile m.2) →
    (∀ m ∈ moves, ¬ fs.isFile m.1) →
    (moves.map (·.2)).Nodup →
    (moves.map (·.1)).Nodup →
    (∀ m ∈ moves, ∀ m' ∈ moves, m.1 ≠ m'.2) →
    (moveBackLoop fs false moves).dirs = fs.dirs
      ∧ ((moveBackLoop fs false moves).files.map (·.1)).Nodup
      ∧ (∀ e, e ∈ (moveBackLoop fs false moves).files ↔
          ((e ∈ fs.files ∧ e.1 ∉ moves.map (·.2))
            ∨ ∃ m ∈ moves, ∃ i, (m.2, i) ∈ fs.files ∧ e = (m.1, i))) := by
  intro moves
  induction moves with
  | nil =>
    intro fs hnd _ _ _ _ _
    exact ⟨rfl, hnd, by simp [moveBackLoop]⟩
  | cons m ms ih =>
    intro fs hnd hto hfrom htos hfroms hcross
    obtain ⟨f, t⟩ := m
    obtain ⟨htdir, htne, htfile⟩ := hto (f, t) (List.mem_cons_self _ _)
    obtain ⟨⟨tp, i⟩, hti, htp⟩ := htfile
    simp only at htp
    rw [htp] at hti
    have hffile : ¬ fs.isFile f := hfrom (f, t) (List.mem_cons_self _ _)
    have hstep : moveBackLoop fs false ((f, t) :: ms) =
        moveBackLoop (fs.moveFileTo t f) false ms := by
      simp only [moveBackLoop]
      rw [if_pos (show fs.pathExists t from Or.inr ⟨(t, i), hti, rfl⟩)]
      simp only [Bool.false_eq_true, if_false]
      rw [moveAny_eq_moveFileTo htne htdir]
    set fs1 := fs.moveFileTo t f with hfs1
    have hmem1 := moveFileTo_mem hnd hti hffile
    have hdirs1 : fs1.dirs = fs.dirs := moveFileTo_dirs fs t f
    have hnd1 : (fs1.files.map (·.1)).Nodup := moveFileTo_nodup hnd hti hffile
    have htosms : ((f, t) :: ms).Nodup := htos.of_map
    have htos' : (ms.map (·.2)).Nodup := htos.of_cons
    have hfroms' : (ms.map (·.1)).Nodup := hfroms.of_cons
    have ht_not_ms : t ∉ ms.map (·.2) := by
      have := htos
      rw [List.map_cons, List.nodup_cons] at this
      exact this.1
    have hf_not_ms : f ∉ ms.map (·.1) := by
      have := hfroms
      rw [List.map_cons, List.nodup_cons] at this
      exact this.1
    have hcross' : ∀ m' ∈ ms, ∀ m'' ∈ ms, m'.1 ≠ m''.2 := fun m' hm' m'' hm'' =>
      hcross m' (List.mem_cons_of_mem _ hm') m'' (List.mem_cons_of_mem _ hm'')
    have hto' : ∀ m' ∈ ms, m'.2 ∉ fs1.dirs ∧ m'.2 ≠ [] ∧ fs1.isFile m'.2 := by
      intro m' hm'
      obtain ⟨hd', hne', hfile'⟩ := hto m' (List.mem_cons_of_mem _ hm')
      obtain ⟨⟨tp', j⟩, htj, htp'⟩ := hfile'
      simp only at htp'
      rw [htp'] at htj
      refine ⟨by rwa [hdirs1], hne', ?_⟩
      have hm't : m'.2 ≠ t := by
        intro h
        exact ht_not_ms (h ▸ List.mem_map_of_mem (·.2) hm')
      exact ⟨(m'.2, j), (hmem1 (m'.2, j)).mpr (Or.inl ⟨htj, hm't⟩), rfl⟩
    have hfrom' : ∀ m' ∈ ms, ¬ fs1.isFile m'.1 := by
      intro m' hm' hx
      obtain ⟨e, he, hep⟩ := hx
      rcases (hmem1 e).mp he with ⟨hef, -⟩ | rfl
      · exact hfrom m' (List.mem_cons_of_mem _ hm') ⟨e, hef, hep⟩
      · simp only at hep
        exact hf_not_ms (hep ▸ List.mem_map_of_mem (·.1) hm')
    obtain ⟨hdirs2, hnd2, hmem2⟩ := ih fs1 hnd1 hto' hfrom' htos' hfroms' hcross'
    rw [hstep]
    refine ⟨by rw [hdirs2, hdirs1], hnd2, ?_⟩
    intro e
    rw [hmem2 e]
    have hf_ne_t : ∀ m' ∈ (f, t) :: ms, f ≠ m'.2 :=
      fun m' hm' => hcross (f, t) (List.mem_cons_self _ _) m' hm'
    constructor
    · rintro (⟨he1, hnotms⟩ | ⟨m', hm', i', hti', rfl⟩)
      · rcases (hmem1 e).mp he1 with ⟨hef, het⟩ | rfl
        · left
          refine ⟨hef, ?_⟩
          simp only [List.map_cons, List.mem_cons, not_or]
          exact ⟨het, hnotms⟩
        · right
          exact ⟨(f, t), List.mem_cons_self _ _, i, hti, rfl⟩
      · rcases (hmem1 (m'.2, i')).mp hti' with ⟨htf, -⟩ | heqq
        · right
          exact ⟨m', List.mem_cons_of_mem _ hm', i', htf, rfl⟩
        · exfalso
          have : m'.2 = f := congrArg Prod.fst heqq
          exact hf_ne_t m' (List.mem_cons_of_mem _ hm') this.symm
    · rintro (⟨hef, hne⟩ | ⟨m', hm', i', hti', rfl⟩)
      · simp only [List.map_cons, List.mem_cons, not_or] at hne
        exact Or.inl ⟨(hmem1 e).mpr (Or.inl ⟨hef, hne.1⟩), hne.2⟩
      · rcases List.mem_cons.mp hm' with rfl | hmss
        · have hii : i' = i := file_id_unique hnd hti' hti
          subst hii
          left
          simp only
          refine ⟨(hmem1 _).mpr (Or.inr rfl), ?_⟩
          intro hmem
          obtain ⟨m'', hm'', hm''2⟩ := List.mem_map.mp hmem
          exact hf_ne_t m'' (List.mem_cons_of_mem _ hm'') hm''2.symm
        · have hm't : m'.2 ≠ t := by
            intro h
            exact ht_not_ms (h ▸ List.mem_map_of_mem (·.2) hmss)
          exact Or.inr ⟨m', hmss, i',
            (hmem1 (m'.2, i')).mpr (Or.inl ⟨hti', hm't⟩), rfl⟩

/-- The initial segments of a path are pairwise distinct. -/
theorem pathInits_nodup (p : FsPath) : (pathInits p).Nodup := by
  unfold pathInits
  refine List.Nodup.map_on ?_ (List.nodup_range _)
  intro i hi j hj hij
  rw [List.mem_range] at hi hj
  have hleni : (p.take (i + 1)).length = i + 1 := by
    rw [List.length_take]
    omega
  have hlenj : (p.take (j + 1)).length = j + 1 := by
    rw [List.length_take]
    omega
  have := congrArg List.length hij
  rw [hleni, hlenj] at this
  omega

/-- A nonempty path is among its own initial segments. -/
theorem self_mem_pathInits {p : FsPath} (h : p ≠ []) : p ∈ pathInits p := by
  unfold pathInits
  rw [List.mem_map]
  refine ⟨p.length - 1, ?_, ?_⟩
  · rw [List.mem_range]
    have : 0 < p.length := List.length_pos.mpr h
    omega
  · have : p.length - 1 + 1 = p.length := by
      have : 0 < p.length := List.length_pos.mpr h
      omega
    rw [this, List.take_length]

/-- A filter that keeps exactly one element of a duplicate-free list. -/
theorem filter_eq_singleton_of {α : Type} [DecidableEq α] (l : List α) (q : α → Bool)
    (x : α) (hnd : l.Nodup) (hx : x ∈ l) (hqx : q x = true)
    (hother : ∀ y ∈ l, y ≠ x → q y = false) : l.filter q = [x] := by
  induction l with
  | nil => cases hx
  | cons a as ih =>
    rw [List.nodup_cons] at hnd
    rcases List.mem_cons.mp hx with rfl | hx'
    · have hrest : as.filter q = [] := by
        rw [List.filter_eq_nil_iff]
        intro b hb
        have hbx : b ≠ x := fun h => hnd.1 (h ▸ hb)
        simp [hother b (List.mem_cons_of_mem _ hb) hbx]
      rw [List.filter_cons, if_pos hqx, hrest]
    · have hax : a ≠ x := fun h => hnd.1 (h ▸ hx')
      rw [List.filter_cons, if_neg (by simp [hother a (List.mem_cons_self _ _) hax]),
        ih hnd.2 hx' (fun y hy hyx => hother y (List.mem_cons_of_mem _ hy) hyx)]

/-- `makedirs` when the parent chain already exists and the target does
not: exactly the target directory is appended. -/
theorem makedirs_append_target {fs : FS} {target : FsPath} (htne : target ≠ [])
    (hnew : target ∉ fs.dirs)
    (hchain : ∀ q ∈ pathInits target, q = target ∨ q ∈ fs.dirs) :
    (fs.makedirs target).dirs = fs.dirs ++ [target] := by
  unfold FS.makedirs
  simp only
  congr 1
  refine filter_eq_singleton_of _ _ _ (pathInits_nodup target) (self_mem_pathInits htne)
    (by simp [hnew]) ?_
  intro y hy hyx
  rcases hchain y hy with rfl | hmem
  · exact absurd rfl hyx
  · simp [hmem]

/-- `makedirs` never touches the files. -/
theorem makedirs_files (fs : FS) (p : FsPath) : (fs.makedirs p).files = fs.files := rfl

/-- A directory is not its own immediate entry. -/
theorem not_isChildOf_self (p : FsPath) : ¬ isChildOf p p := by
  rintro ⟨hne, hdrop⟩
  have := congrArg List.length hdrop
  rw [List.length_dropLast] at this
  have : 0 < p.length := List.length_pos.mpr hne
  omega

/-- Appending an entry to a path never returns the same path. -/
theorem append_singleton_ne {α : Type} (l : List α) (x : α) : l ++ [x] ≠ l := by
  intro h
  have := congrArg List.length h
  simp at this

/-- An immediate entry of `p` has `p` as a proper prefix. -/
theorem isChildOf_strictBelow {p d : FsPath} (h : isChildOf p d) : p <+: d ∧ d ≠ p := by
  obtain ⟨hne, hdrop⟩ := h
  have hd : d = p ++ [d.getLast hne] := by
    conv_lhs => rw [← List.dropLast_append_getLast hne]
    rw [hdrop]
  refine ⟨?_, ?_⟩
  · rw [hd]; exact List.prefix_append _ _
  · rw [hd]; exact append_singleton_ne p _

/-- C7: a `group_loose_files` suggestion applied successfully with no
name collision at the target folder, then undone, moves every moved
file back to its exact original path and removes the target folder if
it was newly created (and leaves it — together with whatever other
files and subdirectories it already contained — if it pre-existed);
the filesystem is restored exactly.  Hypotheses: the snapshot has
path-distinct file entries; the listed sources are distinct-named
existing files outside the directory set and not under the target
(they are loose files); no source's base name exists at the target
(the no-collision premise); and the non-root target either does not
exist yet but has its parent chain present (`is_new_folder` — nothing
can lie below a directory that does not exist) or is an existing
directory with arbitrary other content. -/
theorem groupLooseFilesUndoRoundtrip
    (fs0 : FS) (srcs : List FsPath) (target : FsPath) (isNew : Bool) (fuel : Nat)
    (hnd : (fs0.files.map (·.1)).Nodup)
    (hbn : (srcs.map basenameOf).Nodup)
    (hsrc : ∀ s ∈ srcs, s ≠ [] ∧ s ∉ fs0.dirs ∧ fs0.isFile s)
    (hcoll : ∀ s ∈ srcs, ¬ fs0.pathExists (target ++ [basenameOf s]))
    (htne : target ≠ [])
    (hloose : ∀ s ∈ srcs, ¬ target <+: s)
    (hnew : isNew = true → target ∉ fs0.dirs ∧
              (∀ q ∈ pathInits target, q = target ∨ q ∈ fs0.dirs) ∧
              (∀ d ∈ fs0.dirs, ¬ target <+: d) ∧
              (∀ e ∈ fs0.files, ¬ target <+: e.1))
    (hold : isNew = false → target ∈ fs0.dirs) :
    ∃ rec fs1 fs2,
      applySuggestion fs0 (.groupLooseFiles srcs target isNew) = (fs1, some rec)
      ∧ rec = ⟨.groupLooseFiles srcs target isNew, "completed",
          some (.movedFiles target isNew
            (srcs.map (fun s => (s, target ++ [basenameOf s]))))⟩
      ∧ undoChange fuel fs1 rec = (fs2, true)
      ∧ fs2.dirs = fs0.dirs
      ∧ (∀ e, e ∈ fs2.files ↔ e ∈ fs0.files) := by
  classical
  set moves := srcs.map (fun s => (s, target ++ [basenameOf s])) with hmoves
  set fsA := if isNew = true then fs0.makedirs target else fs0 with hfsA
  have hAfiles : fsA.files = fs0.files := by
    rw [hfsA]; cases isNew
    · rfl
    · simp [makedirs_files]
  have hAdirs : fsA.dirs = if isNew = true then fs0.dirs ++ [target] else fs0.dirs := by
    rw [hfsA]; cases isNew
    · rfl
    · obtain ⟨h1, h2, -, -⟩ := hnew rfl
      simp [makedirs_append_target htne h1 h2]
  have hAd2 : target ∈ fsA.dirs := by
    rw [hAdirs]
    cases isNew <;> simp
    · exact hold rfl
  have hsrc_ne_target : ∀ s ∈ srcs, ¬ target <+: s := hloose
  have hAd3 : ∀ s ∈ srcs, s ∉ fsA.dirs := by
    intro s hs hmem
    rw [hAdirs] at hmem
    have hnp := hsrc_ne_target s hs
    cases isNew <;> simp at hmem
    · exact (hsrc s hs).2.1 hmem
    · rcases hmem with hmem | rfl
      · exact (hsrc s hs).2.1 hmem
      · exact hnp (List.prefix_refl _)
  have hdst_ne_dirsA : ∀ s ∈ srcs, target ++ [basenameOf s] ∉ fsA.dirs := by
    intro s hs hmem
    rw [hAdirs] at hmem
    cases isNew <;> simp at hmem
    · exact hcoll s hs (Or.inl (Or.inr hmem))
    · exact hcoll s hs (Or.inl (Or.inr hmem))
  -- apply direction
  have hndA : (fsA.files.map (·.1)).Nodup := by rw [hAfiles]; exact hnd
  have hsrcA : ∀ s ∈ srcs, s ≠ [] ∧ s ∉ fsA.dirs ∧ fsA.isFile s := by
    intro s hs
    refine ⟨(hsrc s hs).1, hAd3 s hs, ?_⟩
    obtain ⟨e, he, hep⟩ := (hsrc s hs).2.2
    exact ⟨e, by rw [hAfiles]; exact he, hep⟩
  have hcollA : ∀ s ∈ srcs, ¬ fsA.pathExists (target ++ [basenameOf s]) := by
    intro s hs hx
    rcases hx with hx | hx
    · rcases hx with hx | hx
      · exact absurd hx (by simp)
      · exact hdst_ne_dirsA s hs hx
    · obtain ⟨e, he, hep⟩ := hx
      rw [hAfiles] at he
      exact hcoll s hs (Or.inr ⟨e, he, hep⟩)
  obtain ⟨fsB, hBeq, hBdirs, hBnd, hBmem⟩ :=
    glfApplyLoop_ok target srcs fsA [] hndA hbn hsrcA hcollA
  rw [List.nil_append] at hBeq
  have happly : applySuggestion fs0 (.groupLooseFiles srcs target isNew) =
      (fsB, some ⟨.groupLooseFiles srcs target isNew, "completed",
        some (.movedFiles target isNew moves)⟩) := by
    simp only [applySuggestion]
    rw [← hfsA, hBeq, ← hmoves]
  -- undo direction
  have hb_inj : ∀ x ∈ srcs, ∀ y ∈ srcs, basenameOf x = basenameOf y → x = y :=
    fun x hx y hy h => List.inj_on_of_nodup_map hbn hx hy h
  have htoB : ∀ m ∈ moves, m.2 ∉ fsB.dirs ∧ m.2 ≠ [] ∧ fsB.isFile m.2 := by
    intro m hm
    rw [hmoves, List.mem_map] at hm
    obtain ⟨s, hs, rfl⟩ := hm
    refine ⟨by rw [hBdirs]; exact hdst_ne_dirsA s hs, by simp, ?_⟩
    obtain ⟨⟨sp, i⟩, hsi, hsp⟩ := (hsrc s hs).2.2
    simp only at hsp
    rw [hsp] at hsi
    exact ⟨(target ++ [basenameOf s], i),
      (hBmem _).mpr (Or.inr ⟨s, hs, i, by rw [hAfiles]; exact hsi, rfl⟩), rfl⟩
  have hfromB : ∀ m ∈ moves, ¬ fsB.isFile m.1 := by
    intro m hm hx
    rw [hmoves, List.mem_map] at hm
    obtain ⟨s, hs, rfl⟩ := hm
    obtain ⟨e, he, hep⟩ := hx
    simp only at hep
    rcases (hBmem e).mp he with ⟨-, hns⟩ | ⟨s', hs', i', -, rfl⟩
    · exact hns (hep ▸ hs)
    · simp only at hep
      exact hsrc_ne_target s hs (by rw [← hep]; exact List.prefix_append _ _)
  have htosB : (moves.map (·.2)).Nodup := by
    have h1 : moves.map (·.2) = (srcs.map basenameOf).map (fun b => target ++ [b]) := by
      rw [hmoves]; simp [List.map_map, Function.comp]
    rw [h1]
    refine hbn.map ?_
    intro a b hab
    simpa using List.append_cancel_left hab
  have hfromsB : (moves.map (·.1)).Nodup := by
    have h1 : moves.map (·.1) = srcs := by
      rw [hmoves]; simp [List.map_map, Function.comp_def]
    rw [h1]; exact hbn.of_map
  have hcrossB : ∀ m ∈ moves, ∀ m' ∈ moves, m.1 ≠ m'.2 := by
    intro m hm m' hm'
    rw [hmoves, List.mem_map] at hm hm'
    obtain ⟨s, hs, rfl⟩ := hm
    obtain ⟨s', hs', rfl⟩ := hm'
    intro h
    simp only at h
    exact hsrc_ne_target s hs (by rw [h]; exact List.prefix_append _ _)
  obtain ⟨hCdirs, hCnd, hCmem⟩ :=
    moveBackLoop_ok moves fsB hBnd htoB hfromB htosB hfromsB hcrossB
  set fsC := moveBackLoop fsB false moves with hfsC
  have hCdirsA : fsC.dirs = fsA.dirs := by rw [hCdirs, hBdirs]
  have hCfs0 : ∀ e, e ∈ fsC.files ↔ e ∈ fs0.files := by
    intro e
    rw [hCmem e]
    constructor
    · rintro (⟨heB, hnottos⟩ | ⟨m, hm, i, hmi, rfl⟩)
      · rcases (hBmem e).mp heB with ⟨hef, -⟩ | ⟨s, hs, i, -, rfl⟩
        · rw [hAfiles] at hef; exact hef
        · exfalso
          apply hnottos
          rw [hmoves, List.map_map]
          exact List.mem_map.mpr ⟨s, hs, rfl⟩
      · rw [hmoves, List.mem_map] at hm
        obtain ⟨s, hs, rfl⟩ := hm
        simp only at hmi ⊢
        rcases (hBmem _).mp hmi with ⟨hef, -⟩ | ⟨s', hs', i', hi', heq⟩
        · exfalso
          rw [hAfiles] at hef
          exact hcoll s hs (Or.inr ⟨_, hef, rfl⟩)
        · have h1 : target ++ [basenameOf s] = target ++ [basenameOf s'] :=
            congrArg Prod.fst heq
          have h2 : i = i' := congrArg Prod.snd heq
          have hbs : basenameOf s = basenameOf s' := by
            simpa using List.append_cancel_left h1
          have hss : s = s' := hb_inj s hs s' hs' hbs
          rw [hss, h2]
          rw [hAfiles] at hi'
          exact hi'
    · intro hef
      by_cases hmem : e.1 ∈ srcs
      · right
        refine ⟨(e.1, target ++ [basenameOf e.1]), ?_, e.2, ?_, ?_⟩
        · rw [hmoves]; exact List.mem_map.mpr ⟨e.1, hmem, rfl⟩
        · refine (hBmem _).mpr (Or.inr ⟨e.1, hmem, e.2, ?_, rfl⟩)
          rw [hAfiles]
          exact (Prod.mk.eta (p := e)) ▸ hef
        · simp
      · left
        refine ⟨(hBmem e).mpr (Or.inl ⟨by rw [hAfiles]; exact hef, hmem⟩), ?_⟩
        intro htos
        rw [hmoves, List.map_map] at htos
        obtain ⟨s, hs, hseq⟩ := List.mem_map.mp htos
        exact hcoll s hs (Or.inr ⟨e, hef, hseq.symm⟩)
  have hrec : undoChange fuel fsB ⟨.groupLooseFiles srcs target isNew, "completed",
      some (.movedFiles target isNew moves)⟩ =
      (if isNew = true ∧ fsC.pathExists target ∧ fsC.listdirEmpty target
       then fsC.rmdir target else fsC, true) := by
    simp only [undoChange]
  have hCpe : fsC.pathExists target := Or.inl (Or.inr (by rw [hCdirsA]; exact hAd2))
  by_cases hin : isNew = true
  · -- newly created target folder: it is removed again
    obtain ⟨hn1, -, hn3, hn4⟩ := hnew hin
    have hClde : fsC.listdirEmpty target := by
      constructor
      · intro d hd hchild
        rw [hCdirsA, hAdirs, if_pos hin] at hd
        rcases List.mem_append.mp hd with hd | hd
        · exact hn3 d hd (isChildOf_strictBelow hchild).1
        · rw [List.mem_singleton] at hd
          rw [hd] at hchild
          exact not_isChildOf_self target hchild
      · intro e he hchild
        exact hn4 e ((hCfs0 e).mp he) (isChildOf_strictBelow hchild).1
    refine ⟨_, fsB, fsC.rmdir target, happly, rfl, ?_, ?_, hCfs0⟩
    · rw [hrec, if_pos ⟨hin, hCpe, hClde⟩]
    · show (fsC.rmdir target).dirs = fs0.dirs
      unfold FS.rmdir
      simp only
      rw [hCdirsA, hAdirs, if_pos hin, List.filter_append]
      have h1 : fs0.dirs.filter (fun d => decide (d ≠ target)) = fs0.dirs := by
        rw [List.filter_eq_self]
        intro d hd
        simp only [decide_eq_true_eq]
        intro h
        exact hn1 (h ▸ hd)
      rw [h1]
      simp
  · -- pre-existing target folder: left in place
    refine ⟨_, fsB, fsC, happly, rfl, ?_, ?_, hCfs0⟩
    · rw [hrec, if_neg (fun hc => hin hc.1)]
    · rw [hCdirsA, hAdirs, if_neg hin]

/-- C7, witness, both target kinds: loose root files `p1.jpg`, `p2.jpg`
grouped into the pre-existing, non-empty folder `Images` (it already
holds `old.jpg`, which stays put) and undone; and loose root files
`f1`, `f2` grouped into the newly created folder `T` and undone. -/
theorem groupLooseFilesUndoRoundtrip_witness :
    (∃ rec fs1 fs2,
      applySuggestion ⟨[["Images"]],
            [(["p1.jpg"], 0), (["p2.jpg"], 1), (["Images", "old.jpg"], 2)]⟩
          (.groupLooseFiles [["p1.jpg"], ["p2.jpg"]] ["Images"] false) = (fs1, some rec)
      ∧ rec = ⟨.groupLooseFiles [["p1.jpg"], ["p2.jpg"]] ["Images"] false, "completed",
          some (.movedFiles ["Images"] false
            ([["p1.jpg"], ["p2.jpg"]].map (fun s => (s, ["Images"] ++ [basenameOf s]))))⟩
      ∧ undoChange 100 fs1 rec = (fs2, true)
      ∧ fs2.dirs = (⟨[["Images"]],
            [(["p1.jpg"], 0), (["p2.jpg"], 1), (["Images", "old.jpg"], 2)]⟩ : FS).dirs
      ∧ (∀ e, e ∈ fs2.files ↔ e ∈ (⟨[["Images"]],
            [(["p1.jpg"], 0), (["p2.jpg"], 1), (["Images", "old.jpg"], 2)]⟩ : FS).files))
    ∧ (∃ rec fs1 fs2,
      applySuggestion ⟨[], [(["f1"], 0), (["f2"], 1)]⟩
          (.groupLooseFiles [["f1"], ["f2"]] ["T"] true) = (fs1, some rec)
      ∧ rec = ⟨.groupLooseFiles [["f1"], ["f2"]] ["T"] true, "completed",
          some (.movedFiles ["T"] true
            ([["f1"], ["f2"]].map (fun s => (s, ["T"] ++ [basenameOf s]))))⟩
      ∧ undoChange 100 fs1 rec = (fs2, true)
      ∧ fs2.dirs = (⟨[], [(["f1"], 0), (["f2"], 1)]⟩ : FS).dirs
      ∧ (∀ e, e ∈ fs2.files ↔ e ∈ (⟨[], [(["f1"], 0), (["f2"], 1)]⟩ : FS).files)) :=
  ⟨groupLooseFilesUndoRoundtrip
      ⟨[["Images"]], [(["p1.jpg"], 0), (["p2.jpg"], 1), (["Images", "old.jpg"], 2)]⟩
      [["p1.jpg"], ["p2.jpg"]] ["Images"] false 100 (by decide) (by decide) (by decide)
      (by decide) (by decide) (by decide) (by decide) (by decide),
   groupLooseFilesUndoRoundtrip ⟨[], [(["f1"], 0), (["f2"], 1)]⟩ [["f1"], ["f2"]] ["T"]
      true 100 (by decide) (by decide) (by decide) (by decide) (by decide) (by decide)
      (by decide) (by decide)⟩
